import Mathlib

/-!
Verification of the FLGO `system_simulator/base.py` core: the `ElemClock`
priority-queue clock, the `BasicStateUpdater` client state machine, and the
round-protocol decorators (`with_availability`, `with_dropout`,
`with_clock`, `with_completeness`).

The clock's queue is Python's `queue.PriorityQueue`, i.e. the `heapq`
binary-heap algorithms driven by `Elem.__lt__` (comparison on `time` only).
We embed `heapq`'s `_siftdown`/`_siftup`/`heappush`/`heappop` literally on
`List`, with `List.set`/`List.getD` standing for in-place index assignment
and indexing.
-/

namespace FLGO

/-- `ElemClock.Elem`: a payload together with its arrival time.
Times are Python ints, so we use `Int`. -/
structure Elem (α : Type) where
  x : α
  time : Int
  deriving DecidableEq, Repr

instance {α : Type} [Inhabited α] : Inhabited (Elem α) := ⟨⟨default, 0⟩⟩

variable {α : Type} [Inhabited α]

/-- Index into the heap list (Python `heap[i]`; all accesses are in bounds
in the source, so the default is never observable there). -/
def nth (l : List (Elem α)) (i : Nat) : Elem α := l.getD i default

/-- `heapq._siftdown(heap, startpos, pos)`: `newitem` has already been read
from `heap[pos]`; walk parents down until `newitem` is not less than the
parent, then store `newitem`. -/
def siftdownLoop (newitem : Elem α) : List (Elem α) → Nat → Nat → List (Elem α)
  | heap, startpos, pos =>
    if h : startpos < pos then
      let parentpos := (pos - 1) / 2
      let parent := nth heap parentpos
      if newitem.time < parent.time then
        siftdownLoop newitem (heap.set pos parent) startpos parentpos
      else heap.set pos newitem
    else heap.set pos newitem
  termination_by _ _ pos => pos
  decreasing_by simp_wf; omega

/-- The loop of `heapq._siftup(heap, pos)`: bubble the smaller child up
until a leaf is reached, store `newitem` at the leaf, and return the leaf
position (the Python code then calls `_siftdown(heap, startpos, pos)`). -/
def siftupLoop (endpos : Nat) (newitem : Elem α) : List (Elem α) → Nat → List (Elem α) × Nat
  | heap, pos =>
    let childpos := 2 * pos + 1
    if h : childpos < endpos then
      let rightpos := childpos + 1
      let childpos' := if rightpos < endpos ∧ ¬ (nth heap childpos).time < (nth heap rightpos).time
        then rightpos else childpos
      siftupLoop endpos newitem (heap.set pos (nth heap childpos')) childpos'
    else (heap.set pos newitem, pos)
  termination_by _ pos => endpos - pos
  decreasing_by simp_wf; split <;> omega

/-- `heapq._siftup(heap, pos)`.  After the descent loop Python stores
`newitem` at the final position and calls `_siftdown(heap, pos₀, finalpos)`
(which re-reads `newitem` from `heap[finalpos]`, where it was just stored). -/
def siftup (heap : List (Elem α)) (pos : Nat) : List (Elem α) :=
  let newitem := nth heap pos
  let r := siftupLoop heap.length newitem heap pos
  siftdownLoop newitem r.1 pos r.2

/-- `heapq.heappush(heap, item)`: append then `_siftdown(heap, 0, len-1)`. -/
def heappush (heap : List (Elem α)) (item : Elem α) : List (Elem α) :=
  siftdownLoop item (heap ++ [item]) 0 heap.length

/-- `heapq.heappop(heap)`: pop the last element; if the heap is still
nonempty, take the root as the return value, move the last element to the
root and `_siftup(heap, 0)`.  `none` models popping an empty heap (the
`ElemClock` methods always guard with `empty()` first). -/
def heappop (heap : List (Elem α)) : Option (Elem α × List (Elem α)) :=
  match heap with
  | [] => none
  | _ :: _ =>
    let lastelt := heap.getLastD default
    let rest := heap.dropLast
    match rest with
    | [] => some (lastelt, [])
    | _ :: _ => some (nth rest 0, siftup (rest.set 0 lastelt) 0)

/-- The binary-heap invariant maintained by `heapq` under `Elem.__lt__`
(comparison of `time` only): every non-root entry is `≥` its parent. -/
def IsHeap (l : List (Elem α)) : Prop :=
  ∀ j, j < l.length → 0 < j → (nth l ((j - 1) / 2)).time ≤ (nth l j).time

instance (l : List (Elem α)) : Decidable (IsHeap l) :=
  Nat.decidableBallLT l.length _

/-- The heap invariant in child-edge form. -/
theorem isHeap_child {l : List (Elem α)} (h : IsHeap l) :
    ∀ i j, (j = 2 * i + 1 ∨ j = 2 * i + 2) → j < l.length →
      (nth l i).time ≤ (nth l j).time := by
  intro i j hij hj
  have hji : (j - 1) / 2 = i := by omega
  have := h j hj (by omega)
  rwa [hji] at this

theorem isHeap_of_child {l : List (Elem α)}
    (h : ∀ i j, (j = 2 * i + 1 ∨ j = 2 * i + 2) → j < l.length →
      (nth l i).time ≤ (nth l j).time) : IsHeap l := by
  intro j hj hj0
  exact h ((j - 1) / 2) j (by omega) hj

theorem nth_eq (l : List (Elem α)) (i : Nat) : nth l i = (l[i]?).getD default := by
  simp [nth]

theorem nth_set_self {l : List (Elem α)} {i : Nat} (h : i < l.length) (a : Elem α) :
    nth (l.set i a) i = a := by
  simp [nth_eq, List.getElem?_set_self h]

theorem nth_set_ne {l : List (Elem α)} {i j : Nat} (h : i ≠ j) (a : Elem α) :
    nth (l.set i a) j = nth l j := by
  simp [nth_eq, List.getElem?_set_ne h]

theorem set_nth_self {l : List (Elem α)} {i : Nat} (h : i < l.length) :
    l.set i (nth l i) = l := by
  induction l generalizing i with
  | nil => rfl
  | cons x xs ih =>
    cases i with
    | zero => simp [nth_eq]
    | succ n =>
      have h' : n < xs.length := by simpa using h
      show x :: xs.set n (nth (x :: xs) (n + 1)) = x :: xs
      rw [show nth (x :: xs) (n + 1) = nth xs n by simp [nth_eq], ih h']

theorem perm_cons_set {xs : List (Elem α)} {k : Nat} (h : k < xs.length) (a b : Elem α) :
    (a :: xs.set k b).Perm (b :: xs.set k a) := by
  induction xs generalizing k with
  | nil => simp at h
  | cons y ys ih =>
    cases k with
    | zero => exact List.Perm.swap b a ys
    | succ n =>
      have h' : n < ys.length := by simpa using h
      exact (List.Perm.swap y a _).trans ((List.Perm.cons y (ih h')).trans (List.Perm.swap b y _))

theorem perm_set_set {l : List (Elem α)} {i j : Nat} (hij : i ≠ j) (hi : i < l.length)
    (hj : j < l.length) (a b : Elem α) :
    ((l.set i a).set j b).Perm ((l.set i b).set j a) := by
  induction l generalizing i j with
  | nil => simp at hi
  | cons x xs ih =>
    match i, j with
    | 0, 0 => exact absurd rfl hij
    | 0, m + 1 =>
      have hm : m < xs.length := by simpa using hj
      exact perm_cons_set hm a b
    | n + 1, 0 =>
      have hn : n < xs.length := by simpa using hi
      show (b :: xs.set n a).Perm (a :: xs.set n b)
      exact (perm_cons_set hn a b).symm
    | n + 1, m + 1 =>
      have hn : n < xs.length := by simpa using hi
      have hm : m < xs.length := by simpa using hj
      exact List.Perm.cons x (ih (by omega) hn hm)

/-- Overwriting position `i` with the value at `j`, then position `j` with a
fresh value, permutes to just overwriting position `i` with the fresh value. -/
theorem perm_set_move {l : List (Elem α)} {i j : Nat} (hij : i ≠ j) (hi : i < l.length)
    (hj : j < l.length) (b : Elem α) :
    ((l.set i (nth l j)).set j b).Perm (l.set i b) := by
  refine (perm_set_set hij hi hj (nth l j) b).trans ?_
  rw [show nth l j = nth (l.set i b) j from (nth_set_ne hij b).symm,
    set_nth_self (by simpa using hj)]

theorem siftdownLoop_eq (n : Elem α) (l : List (Elem α)) (s p : Nat) :
    siftdownLoop n l s p =
      if s < p ∧ n.time < (nth l ((p - 1) / 2)).time then
        siftdownLoop n (l.set p (nth l ((p - 1) / 2))) s ((p - 1) / 2)
      else l.set p n := by
  rw [siftdownLoop]
  by_cases h1 : s < p
  · by_cases h2 : n.time < (nth l ((p - 1) / 2)).time <;> simp [h1, h2]
  · simp [h1]

/-- The child index chosen by `_siftup`'s loop body: the right child when it
exists and the left child is not strictly smaller, else the left child. -/
def chosenChild (endpos : Nat) (l : List (Elem α)) (p : Nat) : Nat :=
  if 2 * p + 2 < endpos ∧ ¬ (nth l (2 * p + 1)).time < (nth l (2 * p + 2)).time
    then 2 * p + 2 else 2 * p + 1

theorem siftupLoop_eq (endpos : Nat) (n : Elem α) (l : List (Elem α)) (p : Nat) :
    siftupLoop endpos n l p =
      if 2 * p + 1 < endpos then
        siftupLoop endpos n (l.set p (nth l (chosenChild endpos l p))) (chosenChild endpos l p)
      else (l.set p n, p) := by
  rw [siftupLoop]
  by_cases h1 : 2 * p + 1 < endpos
  · rw [dif_pos h1, if_pos h1]
    rfl
  · rw [dif_neg h1, if_neg h1]

theorem chosenChild_range (endpos : Nat) (l : List (Elem α)) (p : Nat)
    (h : 2 * p + 1 < endpos) :
    2 * p + 1 ≤ chosenChild endpos l p ∧ chosenChild endpos l p ≤ 2 * p + 2 ∧
      chosenChild endpos l p < endpos := by
  unfold chosenChild; split <;> omega

theorem length_siftdownLoop (n : Elem α) (l : List (Elem α)) (s p : Nat) :
    (siftdownLoop n l s p).length = l.length := by
  induction p using Nat.strong_induction_on generalizing l with
  | _ p ih =>
    rw [siftdownLoop_eq]
    split
    · next hc => rw [ih _ (by omega), List.length_set]
    · rw [List.length_set]

theorem length_siftupLoop (endpos : Nat) (n : Elem α) (p : Nat) (l : List (Elem α)) :
    (siftupLoop endpos n l p).1.length = l.length := by
  have H : ∀ k (p : Nat) (l : List (Elem α)), endpos - p ≤ k →
      (siftupLoop endpos n l p).1.length = l.length := by
    intro k
    induction k with
    | zero =>
      intro p l hk
      rw [siftupLoop_eq, if_neg (by omega)]
      simp
    | succ k ih =>
      intro p l hk
      rw [siftupLoop_eq]
      split
      · next hc =>
        have hcc := chosenChild_range endpos l p hc
        rw [ih _ _ (by omega), List.length_set]
      · simp
  exact H (endpos - p) p l le_rfl

theorem length_siftup (l : List (Elem α)) (p : Nat) :
    (siftup l p).length = l.length := by
  unfold siftup
  rw [length_siftdownLoop, length_siftupLoop]

theorem nth_getElem {l : List (Elem α)} {i : Nat} (h : i < l.length) : nth l i = l[i] := by
  simp [nth_eq, List.getElem?_eq_getElem h]

theorem nth_mem {l : List (Elem α)} {i : Nat} (h : i < l.length) : nth l i ∈ l := by
  rw [nth_getElem h]
  exact List.getElem_mem h

theorem mem_nth {l : List (Elem α)} {e : Elem α} (h : e ∈ l) :
    ∃ i, ∃ _ : i < l.length, nth l i = e := by
  obtain ⟨i, hi, he⟩ := List.mem_iff_getElem.mp h
  exact ⟨i, hi, by rw [nth_getElem hi, he]⟩

/-- In a `heapq` heap, the root is a minimum. -/
theorem isHeap_nth_zero_le {l : List (Elem α)} (hq : IsHeap l) :
    ∀ i, i < l.length → (nth l 0).time ≤ (nth l i).time := by
  intro i
  induction i using Nat.strong_induction_on with
  | _ i ih =>
    intro hi
    rcases Nat.eq_zero_or_pos i with h0 | hpos
    · subst h0; exact le_refl _
    · exact le_trans (ih ((i - 1) / 2) (by omega) (by omega)) (hq i hi hpos)

theorem isHeap_root_le_mem {l : List (Elem α)} (hq : IsHeap l) {e : Elem α} (he : e ∈ l) :
    (nth l 0).time ≤ e.time := by
  obtain ⟨i, hi, rfl⟩ := mem_nth he
  exact isHeap_nth_zero_le hq i hi

/-- Correctness of `heapq._siftdown` as always invoked here (`startpos = 0`):
from a list that is a heap except around a hole at `pos` (hypotheses `h1`-`h3`),
bubbling `newitem` up produces a heap that is a permutation of writing
`newitem` into the hole. -/
theorem siftdownLoop_spec (n : Elem α) :
    ∀ (pos : Nat) (l : List (Elem α)), pos < l.length →
    (∀ i j, (j = 2 * i + 1 ∨ j = 2 * i + 2) → j < l.length → j ≠ pos →
      (nth l i).time ≤ (nth l j).time) →
    (∀ j, (j = 2 * pos + 1 ∨ j = 2 * pos + 2) → j < l.length → n.time ≤ (nth l j).time) →
    (∀ j, 0 < pos → (j = 2 * pos + 1 ∨ j = 2 * pos + 2) → j < l.length →
      (nth l ((pos - 1) / 2)).time ≤ (nth l j).time) →
    IsHeap (siftdownLoop n l 0 pos) ∧ (siftdownLoop n l 0 pos).Perm (l.set pos n) := by
  intro pos
  induction pos using Nat.strong_induction_on with
  | _ pos ih =>
    intro l hpos h1 h2 h3
    rw [siftdownLoop_eq]
    by_cases hc : 0 < pos ∧ n.time < (nth l ((pos - 1) / 2)).time
    · rw [if_pos hc]
      obtain ⟨hp0, hlt⟩ := hc
      have hplt : (pos - 1) / 2 < pos := by omega
      have hplen : (pos - 1) / 2 < l.length := lt_trans hplt hpos
      have hchild : pos = 2 * ((pos - 1) / 2) + 1 ∨ pos = 2 * ((pos - 1) / 2) + 2 := by omega
      have H1 : ∀ i j, (j = 2 * i + 1 ∨ j = 2 * i + 2) →
          j < (l.set pos (nth l ((pos - 1) / 2))).length → j ≠ (pos - 1) / 2 →
          (nth (l.set pos (nth l ((pos - 1) / 2))) i).time ≤
            (nth (l.set pos (nth l ((pos - 1) / 2))) j).time := by
        intro i j hij hjlen hjp
        rw [List.length_set] at hjlen
        by_cases hjpos : j = pos
        · have hip : i = (pos - 1) / 2 := by omega
          rw [hjpos, hip, nth_set_ne (by omega), nth_set_self hpos]
        · rw [nth_set_ne (fun hh => hjpos hh.symm)]
          by_cases hipos : i = pos
          · rw [hipos] at hij
            rw [hipos, nth_set_self hpos]
            exact h3 j hp0 hij hjlen
          · rw [nth_set_ne (fun hh => hipos hh.symm)]
            exact h1 i j hij hjlen hjpos
      have H2 : ∀ j, (j = 2 * ((pos - 1) / 2) + 1 ∨ j = 2 * ((pos - 1) / 2) + 2) →
          j < (l.set pos (nth l ((pos - 1) / 2))).length →
          n.time ≤ (nth (l.set pos (nth l ((pos - 1) / 2))) j).time := by
        intro j hj hjlen
        rw [List.length_set] at hjlen
        by_cases hjpos : j = pos
        · rw [hjpos, nth_set_self hpos]
          exact le_of_lt hlt
        · rw [nth_set_ne (fun hh => hjpos hh.symm)]
          exact le_trans (le_of_lt hlt) (h1 ((pos - 1) / 2) j hj hjlen hjpos)
      have H3 : ∀ j, 0 < (pos - 1) / 2 →
          (j = 2 * ((pos - 1) / 2) + 1 ∨ j = 2 * ((pos - 1) / 2) + 2) →
          j < (l.set pos (nth l ((pos - 1) / 2))).length →
          (nth (l.set pos (nth l ((pos - 1) / 2))) (((pos - 1) / 2 - 1) / 2)).time ≤
            (nth (l.set pos (nth l ((pos - 1) / 2))) j).time := by
        intro j hg0 hj hjlen
        rw [List.length_set] at hjlen
        have hgp : (pos - 1) / 2 = 2 * (((pos - 1) / 2 - 1) / 2) + 1 ∨
            (pos - 1) / 2 = 2 * (((pos - 1) / 2 - 1) / 2) + 2 := by omega
        have hgedge : (nth l (((pos - 1) / 2 - 1) / 2)).time ≤ (nth l ((pos - 1) / 2)).time :=
          h1 (((pos - 1) / 2 - 1) / 2) ((pos - 1) / 2) hgp hplen (by omega)
        rw [nth_set_ne (by omega)]
        by_cases hjpos : j = pos
        · rw [hjpos, nth_set_self hpos]
          exact hgedge
        · rw [nth_set_ne (fun hh => hjpos hh.symm)]
          exact le_trans hgedge (h1 ((pos - 1) / 2) j hj hjlen hjpos)
      obtain ⟨hh, hperm⟩ := ih ((pos - 1) / 2) hplt (l.set pos (nth l ((pos - 1) / 2)))
        (by simpa using hplen) H1 H2 H3
      exact ⟨hh, hperm.trans (perm_set_move (by omega) hpos hplen n)⟩
    · rw [if_neg hc]
      refine ⟨isHeap_of_child ?_, List.Perm.refl _⟩
      intro i j hij hjlen
      rw [List.length_set] at hjlen
      by_cases hjpos : j = pos
      · have hp0 : 0 < pos := by omega
        have hip : i = (pos - 1) / 2 := by omega
        rw [hjpos, hip, nth_set_ne (by omega), nth_set_self hpos]
        exact Int.not_lt.mp (fun hlt => hc ⟨hp0, hlt⟩)
      · rw [nth_set_ne (fun hh => hjpos hh.symm)]
        by_cases hipos : i = pos
        · rw [hipos] at hij
          rw [hipos, nth_set_self hpos]
          exact h2 j hij hjlen
        · rw [nth_set_ne (fun hh => hipos hh.symm)]
          exact h1 i j hij hjlen hjpos

/-- The chosen child is a minimum among the (in-range) children. -/
theorem chosenChild_min (endpos : Nat) (l : List (Elem α)) (p : Nat)
    (hlen : endpos = l.length) (h : 2 * p + 1 < endpos) :
    ∀ j, (j = 2 * p + 1 ∨ j = 2 * p + 2) → j < l.length →
      (nth l (chosenChild endpos l p)).time ≤ (nth l j).time := by
  intro j hj hjlen
  unfold chosenChild
  split
  · next hcond =>
    rcases hj with rfl | rfl
    · exact Int.not_lt.mp hcond.2
    · exact le_refl _
  · next hcond =>
    rcases hj with rfl | rfl
    · exact le_refl _
    · have hlt : (nth l (2 * p + 1)).time < (nth l (2 * p + 2)).time := by
        by_contra hnot
        exact hcond ⟨by omega, hnot⟩
      exact le_of_lt hlt

/-- Correctness of the descent loop of `heapq._siftup`: starting from a list
that is a heap except for the edges out of the hole at `pos`, it digs a hole
down to a leaf (always moving the smaller child up), writes `newitem` at the
leaf, and returns the leaf position.  The result is a permutation of writing
`newitem` at `pos`, and is a heap except possibly around the returned leaf. -/
theorem siftupLoop_spec (n : Elem α) (endpos : Nat) :
    ∀ (pos : Nat) (l : List (Elem α)), endpos = l.length → pos < l.length →
    (∀ i j, (j = 2 * i + 1 ∨ j = 2 * i + 2) → j < l.length → i ≠ pos →
      (nth l i).time ≤ (nth l j).time) →
    (∀ j, 0 < pos → (j = 2 * pos + 1 ∨ j = 2 * pos + 2) → j < l.length →
      (nth l ((pos - 1) / 2)).time ≤ (nth l j).time) →
    (siftupLoop endpos n l pos).1.Perm (l.set pos n) ∧
    (siftupLoop endpos n l pos).2 < l.length ∧
    l.length ≤ 2 * (siftupLoop endpos n l pos).2 + 1 ∧
    nth (siftupLoop endpos n l pos).1 (siftupLoop endpos n l pos).2 = n ∧
    (∀ i j, (j = 2 * i + 1 ∨ j = 2 * i + 2) → j < (siftupLoop endpos n l pos).1.length →
      j ≠ (siftupLoop endpos n l pos).2 →
      (nth (siftupLoop endpos n l pos).1 i).time ≤ (nth (siftupLoop endpos n l pos).1 j).time) := by
  have H : ∀ k (pos : Nat) (l : List (Elem α)), endpos - pos ≤ k → endpos = l.length →
      pos < l.length →
      (∀ i j, (j = 2 * i + 1 ∨ j = 2 * i + 2) → j < l.length → i ≠ pos →
        (nth l i).time ≤ (nth l j).time) →
      (∀ j, 0 < pos → (j = 2 * pos + 1 ∨ j = 2 * pos + 2) → j < l.length →
        (nth l ((pos - 1) / 2)).time ≤ (nth l j).time) →
      (siftupLoop endpos n l pos).1.Perm (l.set pos n) ∧
      (siftupLoop endpos n l pos).2 < l.length ∧
      l.length ≤ 2 * (siftupLoop endpos n l pos).2 + 1 ∧
      nth (siftupLoop endpos n l pos).1 (siftupLoop endpos n l pos).2 = n ∧
      (∀ i j, (j = 2 * i + 1 ∨ j = 2 * i + 2) → j < (siftupLoop endpos n l pos).1.length →
        j ≠ (siftupLoop endpos n l pos).2 →
        (nth (siftupLoop endpos n l pos).1 i).time ≤
          (nth (siftupLoop endpos n l pos).1 j).time) := by
    intro k
    induction k with
    | zero =>
      intro pos l hk hend hpos hU1 hU2
      rw [siftupLoop_eq, if_neg (by omega)]
      refine ⟨List.Perm.refl _, hpos, by omega, nth_set_self hpos _, ?_⟩
      intro i j hij hjlen hjpos
      rw [List.length_set] at hjlen
      by_cases hipos : i = pos
      · subst hipos
        omega
      · rw [nth_set_ne (fun hh => hipos hh.symm), nth_set_ne (fun hh => hjpos hh.symm)]
        exact hU1 i j hij hjlen hipos
    | succ k ih =>
      intro pos l hk hend hpos hU1 hU2
      rw [siftupLoop_eq]
      by_cases hc : 2 * pos + 1 < endpos
      · rw [if_pos hc]
        obtain ⟨hc1, hc2, hc3⟩ := chosenChild_range endpos l pos hc
        have hclen : chosenChild endpos l pos < l.length := by omega
        have hcpos : chosenChild endpos l pos ≠ pos := by omega
        have hmin := chosenChild_min endpos l pos hend hc
        have hchild : chosenChild endpos l pos = 2 * pos + 1 ∨
            chosenChild endpos l pos = 2 * pos + 2 := by omega
        have hU1' : ∀ i j, (j = 2 * i + 1 ∨ j = 2 * i + 2) →
            j < (l.set pos (nth l (chosenChild endpos l pos))).length →
            i ≠ chosenChild endpos l pos →
            (nth (l.set pos (nth l (chosenChild endpos l pos))) i).time ≤
              (nth (l.set pos (nth l (chosenChild endpos l pos))) j).time := by
          intro i j hij hjlen hic
          rw [List.length_set] at hjlen
          by_cases hjpos : j = pos
          · have hp0 : 0 < pos := by omega
            have hip : i = (pos - 1) / 2 := by omega
            rw [hjpos, hip, nth_set_ne (by omega), nth_set_self hpos]
            exact hU2 (chosenChild endpos l pos) hp0 hchild hclen
          · rw [nth_set_ne (fun hh => hjpos hh.symm)]
            by_cases hipos : i = pos
            · rw [hipos] at hij
              rw [hipos, nth_set_self hpos]
              exact hmin j hij hjlen
            · rw [nth_set_ne (fun hh => hipos hh.symm)]
              exact hU1 i j hij hjlen hipos
        have hU2' : ∀ j, 0 < chosenChild endpos l pos →
            (j = 2 * chosenChild endpos l pos + 1 ∨ j = 2 * chosenChild endpos l pos + 2) →
            j < (l.set pos (nth l (chosenChild endpos l pos))).length →
            (nth (l.set pos (nth l (chosenChild endpos l pos)))
              ((chosenChild endpos l pos - 1) / 2)).time ≤
              (nth (l.set pos (nth l (chosenChild endpos l pos))) j).time := by
          intro j hc0 hj hjlen
          rw [List.length_set] at hjlen
          have hcp : (chosenChild endpos l pos - 1) / 2 = pos := by omega
          rw [hcp, nth_set_self hpos, nth_set_ne (show pos ≠ j by omega)]
          exact hU1 (chosenChild endpos l pos) j hj hjlen hcpos
        have hres := ih (chosenChild endpos l pos)
          (l.set pos (nth l (chosenChild endpos l pos))) (by omega)
          (by rw [List.length_set]; exact hend) (by rw [List.length_set]; exact hclen)
          hU1' hU2'
        obtain ⟨hperm, hlt, hge, hnth, hB1⟩ := hres
        rw [List.length_set] at hlt hge
        refine ⟨hperm.trans (perm_set_move (fun hh => hcpos hh.symm) hpos hclen n),
          hlt, hge, hnth, hB1⟩
      · rw [if_neg hc]
        refine ⟨List.Perm.refl _, hpos, by omega, nth_set_self hpos _, ?_⟩
        intro i j hij hjlen hjpos
        rw [List.length_set] at hjlen
        by_cases hipos : i = pos
        · subst hipos
          omega
        · rw [nth_set_ne (fun hh => hipos hh.symm), nth_set_ne (fun hh => hjpos hh.symm)]
          exact hU1 i j hij hjlen hipos
  intro pos l hend hpos hU1 hU2
  exact H (endpos - pos) pos l le_rfl hend hpos hU1 hU2

theorem nth_append_left {l l2 : List (Elem α)} {i : Nat} (h : i < l.length) :
    nth (l ++ l2) i = nth l i := by
  simp [nth_eq, List.getElem?_append_left h]

/-- `_siftup(heap, 0)` on a list that is a heap except for the edges out of
the root restores the heap invariant, permuting the contents. -/
theorem siftup_spec {l : List (Elem α)} (h0 : 0 < l.length)
    (hS : ∀ i j, (j = 2 * i + 1 ∨ j = 2 * i + 2) → j < l.length → i ≠ 0 →
      (nth l i).time ≤ (nth l j).time) :
    IsHeap (siftup l 0) ∧ (siftup l 0).Perm l := by
  obtain ⟨hperm, hlt, hge, hnth, hB1⟩ :=
    siftupLoop_spec (nth l 0) l.length 0 l rfl h0 hS (by intro j hj; omega)
  have hlen1 : (siftupLoop l.length (nth l 0) l 0).1.length = l.length :=
    length_siftupLoop _ _ _ _
  have harg : (siftupLoop l.length (nth l 0) l 0).2 <
      (siftupLoop l.length (nth l 0) l 0).1.length := by
    rw [hlen1]; exact hlt
  have hH2 : ∀ j, (j = 2 * (siftupLoop l.length (nth l 0) l 0).2 + 1 ∨
      j = 2 * (siftupLoop l.length (nth l 0) l 0).2 + 2) →
      j < (siftupLoop l.length (nth l 0) l 0).1.length →
      (nth l 0).time ≤ (nth (siftupLoop l.length (nth l 0) l 0).1 j).time := by
    intro j hj hjlen
    rw [hlen1] at hjlen
    omega
  have hH3 : ∀ j, 0 < (siftupLoop l.length (nth l 0) l 0).2 →
      (j = 2 * (siftupLoop l.length (nth l 0) l 0).2 + 1 ∨
      j = 2 * (siftupLoop l.length (nth l 0) l 0).2 + 2) →
      j < (siftupLoop l.length (nth l 0) l 0).1.length →
      (nth (siftupLoop l.length (nth l 0) l 0).1
        (((siftupLoop l.length (nth l 0) l 0).2 - 1) / 2)).time ≤
        (nth (siftupLoop l.length (nth l 0) l 0).1 j).time := by
    intro j h0' hj hjlen
    rw [hlen1] at hjlen
    omega
  obtain ⟨hh, hperm2⟩ := siftdownLoop_spec (nth l 0) (siftupLoop l.length (nth l 0) l 0).2
    (siftupLoop l.length (nth l 0) l 0).1 harg hB1 hH2 hH3
  constructor
  · exact hh
  · show (siftdownLoop (nth l 0) (siftupLoop l.length (nth l 0) l 0).1 0
      (siftupLoop l.length (nth l 0) l 0).2).Perm l
    refine hperm2.trans ?_
    have hkey : (siftupLoop l.length (nth l 0) l 0).1.set (siftupLoop l.length (nth l 0) l 0).2
        (nth l 0) = (siftupLoop l.length (nth l 0) l 0).1 := by
      have h2 := set_nth_self harg
      rw [hnth] at h2
      exact h2
    rw [hkey]
    refine hperm.trans ?_
    rw [set_nth_self h0]

/-- `heappush` preserves the heap invariant and inserts the item. -/
theorem heappush_spec {l : List (Elem α)} (hq : IsHeap l) (e : Elem α) :
    IsHeap (heappush l e) ∧ (heappush l e).Perm (e :: l) := by
  unfold heappush
  have hlen : l.length < (l ++ [e]).length := by simp
  have hnthe : nth (l ++ [e]) l.length = e := by
    rw [nth_eq, List.getElem?_concat_length]
    rfl
  obtain ⟨hh, hperm⟩ := siftdownLoop_spec e l.length (l ++ [e]) hlen
    (by
      intro i j hij hjlen hjne
      have hj : j < l.length := by
        simp only [List.length_append, List.length_cons, List.length_nil] at hjlen
        omega
      have hi : i < l.length := by omega
      rw [nth_append_left hi, nth_append_left hj]
      exact isHeap_child hq i j hij hj)
    (by
      intro j hj hjlen
      simp only [List.length_append, List.length_cons, List.length_nil] at hjlen
      omega)
    (by
      intro j h0 hj hjlen
      simp only [List.length_append, List.length_cons, List.length_nil] at hjlen
      omega)
  refine ⟨hh, hperm.trans ?_⟩
  have hsete : (l ++ [e]).set l.length e = l ++ [e] := by
    have h2 := set_nth_self (l := l ++ [e]) (i := l.length) hlen
    rwa [hnthe] at h2
  rw [hsete]
  exact List.perm_append_singleton e l

/-- `heappop` on a nonempty heap returns the root (a minimum), removing it;
the remainder is again a heap. -/
theorem heappop_spec {q : List (Elem α)} (hq : IsHeap q) (hne : q ≠ []) :
    ∃ e q', heappop q = some (e, q') ∧ e = nth q 0 ∧ IsHeap q' ∧ (e :: q').Perm q := by
  cases q with
  | nil => exact absurd rfl hne
  | cons x xs =>
    cases hrest : (x :: xs).dropLast with
    | nil =>
      have hxs : xs = [] := by
        have h2 := congrArg List.length hrest
        simpa using h2
      subst hxs
      refine ⟨x, [], ?_, ?_, ?_, ?_⟩
      · simp [heappop]
      · simp [nth_eq]
      · intro j hj hj0
        simp at hj
      · exact List.Perm.refl _
    | cons y ys =>
      have hpop : heappop (x :: xs) = some (nth (y :: ys) 0,
          siftup ((y :: ys).set 0 ((x :: xs).getLastD default)) 0) := by
        simp only [heappop, hrest]
      have hylen : (y :: ys).length + 1 = (x :: xs).length := by
        have := congrArg List.length hrest
        simp at this
        simp [← this]
      have hS : ∀ i j, (j = 2 * i + 1 ∨ j = 2 * i + 2) →
          j < ((y :: ys).set 0 ((x :: xs).getLastD default)).length → i ≠ 0 →
          (nth ((y :: ys).set 0 ((x :: xs).getLastD default)) i).time ≤
            (nth ((y :: ys).set 0 ((x :: xs).getLastD default)) j).time := by
        intro i j hij hjlen hi0
        rw [List.length_set] at hjlen
        have hj0 : j ≠ 0 := by omega
        rw [nth_set_ne (fun hh => hi0 hh.symm), nth_set_ne (fun hh => hj0 hh.symm)]
        have hdl : ∀ m, m < (y :: ys).length → nth (y :: ys) m = nth (x :: xs) m := by
          intro m hm
          rw [← hrest]
          have hm' : m < (x :: xs).dropLast.length := by rw [hrest]; exact hm
          rw [nth_eq, nth_eq, List.getElem?_eq_getElem hm',
            List.getElem?_eq_getElem (by omega : m < (x :: xs).length)]
          simp [List.getElem_dropLast]
        rw [hdl i (by omega), hdl j (by omega)]
        exact isHeap_child hq i j hij (by omega)
      obtain ⟨hh, hperm⟩ := siftup_spec (l := (y :: ys).set 0 ((x :: xs).getLastD default))
        (by simp) hS
      refine ⟨nth (y :: ys) 0, _, hpop, ?_, hh, ?_⟩
      · rw [← hrest]
        rw [nth_eq, nth_eq, List.getElem?_eq_getElem (by rw [hrest]; simp :
            0 < (x :: xs).dropLast.length), List.getElem?_eq_getElem (by simp : 0 < (x :: xs).length)]
        simp [List.getElem_dropLast]
      · refine (List.Perm.cons _ hperm).trans ?_
        have hy : nth (y :: ys) 0 = y := by simp [nth_eq]
        rw [hy]
        have hgl : (x :: xs).getLastD default = (x :: xs).getLast (by simp) := by
          rw [List.getLastD_eq_getLast?, List.getLast?_eq_getLast (x :: xs) (by simp)]
          rfl
        have hxxs : x :: xs = (y :: ys) ++ [(x :: xs).getLastD default] := by
          rw [hgl, ← hrest]
          exact (List.dropLast_append_getLast (by simp)).symm
        have hset : (y :: ys).set 0 ((x :: xs).getLastD default) =
            ((x :: xs).getLastD default) :: ys := rfl
        rw [hset]
        conv_rhs => rw [hxxs]
        exact List.Perm.cons y (List.perm_append_singleton _ ys).symm

theorem heappop_length {q q' : List (Elem α)} {e : Elem α}
    (h : heappop q = some (e, q')) : q'.length + 1 = q.length := by
  cases q with
  | nil => simp [heappop] at h
  | cons x xs =>
    cases hrest : (x :: xs).dropLast with
    | nil =>
      have h0 : xs.length = 0 := by
        have h2 := congrArg List.length hrest
        simpa using h2
      simp only [heappop, hrest, Option.some.injEq, Prod.mk.injEq] at h
      obtain ⟨-, h2⟩ := h
      rw [← h2]
      simp [h0]
    | cons y ys =>
      have h1 : ys.length + 1 = xs.length := by
        have h2 := congrArg List.length hrest
        simp at h2
        omega
      simp only [heappop, hrest, Option.some.injEq, Prod.mk.injEq] at h
      obtain ⟨-, h2⟩ := h
      rw [← h2, length_siftup, List.length_set]
      simp [← h1]

/-- `ElemClock.put(x, time)`: `q.put_nowait(Elem(x, time))`, i.e. a `heappush`
of a fresh `Elem`.  The source performs no validation of `time` whatsoever. -/
def put (q : List (Elem α)) (x : α) (time : Int) : List (Elem α) :=
  heappush q ⟨x, time⟩

/-- The loop of `ElemClock.get_until(t)`: `while not empty: elem = q.get();
if elem.time > t: put(elem.x, elem.time); break; else append`.  Returns the
popped elements (in pop order) and the final queue; the source accumulates
`elem.x` only — `get_until` below projects. -/
def getUntilAux : List (Elem α) → Int → List (Elem α) × List (Elem α)
  | q, t =>
    match h : heappop q with
    | none => ([], q)
    | some (e, q') =>
      if e.time > t then ([], put q' e.x e.time)
      else
        let r := getUntilAux q' t
        (e :: r.1, r.2)
  termination_by q _ => q.length
  decreasing_by simp_wf; have := heappop_length h; omega

/-- `ElemClock.get_until(t)`: the list of released payloads, paired with the
queue contents afterwards. -/
def get_until (q : List (Elem α)) (t : Int) : List α × List (Elem α) :=
  ((getUntilAux q t).1.map (fun e => e.x), (getUntilAux q t).2)

theorem getUntilAux_nil (t : Int) : getUntilAux ([] : List (Elem α)) t = ([], []) := by
  rw [getUntilAux]
  rfl

theorem getUntilAux_eq_pop {q : List (Elem α)} {e : Elem α} {q' : List (Elem α)} (t : Int)
    (h : heappop q = some (e, q')) :
    getUntilAux q t = if e.time > t then (([] : List (Elem α)), put q' e.x e.time)
      else ((e :: (getUntilAux q' t).1), (getUntilAux q' t).2) := by
  rw [getUntilAux, h]

/-- `get_until(t)` pops exactly the elements with time `≤ t`, in ascending
time order, and leaves exactly the others queued (still as a valid heap). -/
theorem getUntilAux_spec {q : List (Elem α)} (hq : IsHeap q) (t : Int) :
    (∀ e ∈ (getUntilAux q t).1, e.time ≤ t) ∧
    (getUntilAux q t).1.Pairwise (fun a b => a.time ≤ b.time) ∧
    ((getUntilAux q t).1 ++ (getUntilAux q t).2).Perm q ∧
    (∀ e ∈ (getUntilAux q t).2, t < e.time) ∧
    IsHeap (getUntilAux q t).2 := by
  have H : ∀ n (q : List (Elem α)), q.length ≤ n → IsHeap q →
      (∀ e ∈ (getUntilAux q t).1, e.time ≤ t) ∧
      (getUntilAux q t).1.Pairwise (fun a b => a.time ≤ b.time) ∧
      ((getUntilAux q t).1 ++ (getUntilAux q t).2).Perm q ∧
      (∀ e ∈ (getUntilAux q t).2, t < e.time) ∧
      IsHeap (getUntilAux q t).2 := by
    intro n
    induction n with
    | zero =>
      intro q hlen hq
      have hnil : q = [] := List.eq_nil_of_length_eq_zero (by omega)
      subst hnil
      rw [getUntilAux_nil]
      exact ⟨by simp, by simp, by simp, by simp, by intro j hj; simp at hj⟩
    | succ n ih =>
      intro q hlen hq
      by_cases hqe : q = []
      · subst hqe
        rw [getUntilAux_nil]
        exact ⟨by simp, by simp, by simp, by simp, by intro j hj; simp at hj⟩
      · obtain ⟨e, q', hpop, he0, hq', hperm⟩ := heappop_spec hq hqe
        have hmin : ∀ a ∈ q, e.time ≤ a.time := by
          intro a ha
          rw [he0]
          exact isHeap_root_le_mem hq ha
        have hminq' : ∀ a ∈ q', e.time ≤ a.time := by
          intro a ha
          exact hmin a (hperm.mem_iff.mp (List.mem_cons_of_mem e ha))
        rw [getUntilAux_eq_pop t hpop]
        by_cases hgt : e.time > t
        · rw [if_pos hgt]
          obtain ⟨hhp, hpp⟩ := heappush_spec hq' (⟨e.x, e.time⟩ : Elem α)
          refine ⟨by simp, by simp, ?_, ?_, hhp⟩
          · simp only [List.nil_append]
            show (put q' e.x e.time).Perm q
            exact hpp.trans hperm
          · intro a ha
            have ha2 : a ∈ (⟨e.x, e.time⟩ : Elem α) :: q' := hpp.mem_iff.mp ha
            rcases List.mem_cons.mp ha2 with rfl | ha3
            · exact hgt
            · exact lt_of_lt_of_le hgt (hminq' a ha3)
        · rw [if_neg hgt]
          have hle : e.time ≤ t := Int.not_lt.mp hgt
          have hlen' : q'.length ≤ n := by
            have := heappop_length hpop
            omega
          obtain ⟨ih1, ih2, ih3, ih4, ih5⟩ := ih q' hlen' hq'
          refine ⟨?_, ?_, ?_, ih4, ih5⟩
          · intro a ha
            rcases List.mem_cons.mp ha with rfl | ha2
            · exact hle
            · exact ih1 a ha2
          · refine List.Pairwise.cons ?_ ih2
            intro b hb
            refine hminq' b ?_
            have : b ∈ (getUntilAux q' t).1 ++ (getUntilAux q' t).2 :=
              List.mem_append.mpr (Or.inl hb)
            exact ih3.mem_iff.mp this
          · show ((e :: (getUntilAux q' t).1) ++ (getUntilAux q' t).2).Perm q
            rw [List.cons_append]
            exact (List.Perm.cons e ih3).trans hperm
  exact H q.length q le_rfl hq

/-- `ElemClock.gets()` / the drain loop of `conditionally_clear`: release all
elements in pop order. -/
def drainAll (q : List (Elem α)) : List (Elem α) :=
  match h : heappop q with
  | none => []
  | some (e, q') => e :: drainAll q'
  termination_by q.length
  decreasing_by simp_wf; have := heappop_length h; omega

/-- `ElemClock.conditionally_clear(f)`: drain the whole queue into a buffer
(in pop order), then `put_nowait` back exactly the elements whose payload
does not satisfy `f`. -/
def conditionally_clear (q : List (Elem α)) (f : α → Bool) : List (Elem α) :=
  ((drainAll q).filter (fun e => !(f e.x))).foldl heappush []

theorem drainAll_nil : drainAll ([] : List (Elem α)) = [] := by
  rw [drainAll]
  rfl

theorem drainAll_eq_pop {q : List (Elem α)} {e : Elem α} {q' : List (Elem α)}
    (h : heappop q = some (e, q')) : drainAll q = e :: drainAll q' := by
  rw [drainAll, h]

theorem drainAll_perm {q : List (Elem α)} (hq : IsHeap q) : (drainAll q).Perm q := by
  have H : ∀ n (q : List (Elem α)), q.length ≤ n → IsHeap q → (drainAll q).Perm q := by
    intro n
    induction n with
    | zero =>
      intro q hlen hq
      have hnil : q = [] := List.eq_nil_of_length_eq_zero (by omega)
      subst hnil
      simp [drainAll_nil]
    | succ n ih =>
      intro q hlen hq
      by_cases hqe : q = []
      · subst hqe
        simp [drainAll_nil]
      · obtain ⟨e, q', hpop, he0, hq', hperm⟩ := heappop_spec hq hqe
        rw [drainAll_eq_pop hpop]
        have hlen' : q'.length ≤ n := by
          have := heappop_length hpop
          omega
        exact (List.Perm.cons e (ih q' hlen' hq')).trans hperm
  exact H q.length q le_rfl hq

theorem foldl_heappush_spec (l : List (Elem α)) :
    ∀ init : List (Elem α), IsHeap init →
      IsHeap (l.foldl heappush init) ∧ (l.foldl heappush init).Perm (init ++ l) := by
  induction l with
  | nil =>
    intro init h
    refine ⟨h, ?_⟩
    simp
  | cons e rest ih =>
    intro init h
    obtain ⟨hh, hp⟩ := heappush_spec h e
    obtain ⟨hh2, hp2⟩ := ih (heappush init e) hh
    refine ⟨hh2, hp2.trans ?_⟩
    refine (List.Perm.append_right rest hp).trans ?_
    exact List.perm_middle.symm

/-- `conditionally_clear` keeps exactly the elements failing the predicate
(as a multiset), and the result is a valid heap. -/
theorem conditionally_clear_spec {q : List (Elem α)} (hq : IsHeap q) (f : α → Bool) :
    IsHeap (conditionally_clear q f) ∧
      (conditionally_clear q f).Perm (q.filter (fun e => !(f e.x))) := by
  unfold conditionally_clear
  obtain ⟨hh, hp⟩ := foldl_heappush_spec ((drainAll q).filter (fun e => !(f e.x))) []
    (by intro j hj hj0; simp at hj)
  refine ⟨hh, hp.trans ?_⟩
  simp only [List.nil_append]
  exact (drainAll_perm hq).filter _

end FLGO

/-! ## The client state machine (`BasicStateUpdater`) and the merged system
state.

`cfg.clock` (an `ElemClock`) and `cfg.state_updater` (a `BasicStateUpdater`)
reference each other: `clock.step` invokes `state_updater.flush` once per time
unit, and the decorators use both.  We merge the clock (current time, queue),
the state updater (client states, variables, counters, availability bookkeeping,
its seeded random stream) and the server handle (`current_round`,
`get_tolerance_for_latency`, and the round-transient attributes the decorators
store on the server object) into one state record `Sys`.

The numpy random stream `random_module.rand()` is modelled as an arbitrary
stream `rand : Nat → ℚ` of draws together with a cursor `rand_idx`; every
probabilistic decision consumes one draw in program order. -/

namespace FLGO

/-- A client package in flight.  The engine only ever inspects the `__cid`
and `__t` tags it added itself; the remaining payload is opaque (`body`). -/
structure Pkg where
  body : Nat
  cid : Nat
  t : Int
  deriving DecidableEq, Repr

instance : Inhabited Pkg := ⟨⟨0, 0, 0⟩⟩

/-- The client states of `BasicStateUpdater._STATE`. -/
inductive CState where
  | offline | idle | selected | working | dropped
  deriving DecidableEq, Repr

instance : Inhabited CState := ⟨.idle⟩

/-- The per-client variables of `BasicStateUpdater._VAR_NAMES` (the
engine-private measured sizes `__model_size` etc. are written during a round
but never read by any of the base-class hooks, which are no-ops; they are
omitted). -/
structure ClientVars where
  prob_available : ℚ
  prob_unavailable : ℚ
  prob_drop : ℚ
  working_amount : Nat
  latency : Int
  deriving DecidableEq, Repr

instance : Inhabited ClientVars := ⟨⟨1, 0, 0, 0, 0⟩⟩

/-- `BasicStateUpdater.state_counter` entries. -/
structure Counter where
  dropped_counter : Int
  latency_counter : Int
  deriving DecidableEq, Repr

instance : Inhabited Counter := ⟨⟨0, 0⟩⟩

/-- The merged simulator state: clock + state updater + server handle. -/
structure Sys where
  client_states : List CState
  vars : List ClientVars
  state_counter : List Counter
  roundwise_fixed_availability : Bool
  availability_latest_round : Int
  current_round : Int
  tolerance_for_latency : Int
  rand : Nat → ℚ
  rand_idx : Nat
  time : Int
  q : List (Elem Pkg)
  unavailable_selected : List Nat
  dropped_selected : Option (List Nat)
  overdue_clients : List Nat
  received_clients : List Nat

/-- One draw from the shared seeded stream (`random_module.rand()`). -/
def randval (s : Sys) : ℚ := s.rand s.rand_idx

def randnext (s : Sys) : Sys := {s with rand_idx := s.rand_idx + 1}

/-- `get_client_with_state(state)`: ids whose state matches, ascending. -/
def get_client_with_state (s : Sys) (st : CState) : List Nat :=
  (s.client_states.enum.filter (fun p => p.2 = st)).map (fun p => p.1)

def idle_clients (s : Sys) : List Nat := get_client_with_state s .idle

def working_clients (s : Sys) : List Nat := get_client_with_state s .working

def offline_clients (s : Sys) : List Nat := get_client_with_state s .offline

def selected_clients (s : Sys) : List Nat := get_client_with_state s .selected

def dropped_clients (s : Sys) : List Nat := get_client_with_state s .dropped

/-- The state-assignment loop of `set_client_state`. -/
def set_states (states : List CState) (ids : List Nat) (st : CState) : List CState :=
  ids.foldl (fun cs cid => cs.set cid st) states

/-- `set_client_latency_counter(ids)`: zero `dropped_counter`, set
`latency_counter` to the client's `latency` variable. -/
def set_client_latency_counter (s : Sys) (ids : List Nat) : Sys :=
  {s with state_counter := ids.foldl (fun sc cid =>
    sc.set cid ⟨0, (s.vars.getD cid default).latency⟩) s.state_counter}

/-- `set_client_dropped_counter(ids)`: zero `latency_counter`, set
`dropped_counter` to `server.get_tolerance_for_latency()`. -/
def set_client_dropped_counter (s : Sys) (ids : List Nat) : Sys :=
  {s with state_counter := ids.foldl (fun sc cid =>
    sc.set cid ⟨s.tolerance_for_latency, 0⟩) s.state_counter}

/-- `reset_client_counter(ids)`: zero both counters. -/
def reset_client_counter (s : Sys) (ids : List Nat) : Sys :=
  {s with state_counter := ids.foldl (fun sc cid => sc.set cid ⟨0, 0⟩) s.state_counter}

/-- `set_client_state(ids, state)` (for the five valid state names; an
invalid name raises in the source and is unrepresentable in `CState`). -/
def set_client_state (s : Sys) (ids : List Nat) (st : CState) : Sys :=
  let s' := {s with client_states := set_states s.client_states ids st}
  match st with
  | .dropped => set_client_dropped_counter s' ids
  | .working => set_client_latency_counter s' ids
  | .idle => reset_client_counter s' ids
  | _ => s'

/-- One draw per listed client, in list order, against a per-client
probability; returns the `(cid, draw ≤ prob)` flags in order. -/
def drawFlags (probOf : Nat → ℚ) : List Nat → Sys → List (Nat × Bool) × Sys
  | [], s => ([], s)
  | cid :: rest, s =>
    let r := randval s
    let s' := randnext s
    let res := drawFlags probOf rest s'
    ((cid, r ≤ probOf cid) :: res.1, res.2)

/-- The dropped-client countdown step of `flush` for one client. -/
def flushDroppedOne (s : Sys) (cid : Nat) : Sys :=
  let c := s.state_counter.getD cid default
  let c1 : Counter := ⟨c.dropped_counter - 1, c.latency_counter⟩
  let s1 := {s with state_counter := s.state_counter.set cid c1}
  if c1.dropped_counter < 0 then
    let s2 := {s1 with
      state_counter := s1.state_counter.set cid ⟨0, c1.latency_counter⟩,
      client_states := s1.client_states.set cid CState.offline}
    let r := randval s2
    let s3 := randnext s2
    if r < (s3.vars.getD cid default).prob_unavailable then
      set_client_state s3 [cid] .offline
    else
      set_client_state s3 [cid] .idle
  else s1

/-- `BasicStateUpdater.flush()`.  `update_client_availability` is a no-op in
the base class.  The availability toggle runs unless (idle clients exist AND
round-fixed availability is on AND the round has not advanced); it snapshots
the offline and idle sets, draws one value per offline client (becomes idle on
`rand ≤ prob_available`) then one per idle client (becomes offline on
`rand ≤ prob_unavailable`), and only then applies both batches of transitions.
Afterwards every dropped client's countdown is decremented, resolving expired
ones to offline (`rand < prob_unavailable`) or idle. -/
def flush (s : Sys) : Sys :=
  let s1 :=
    if (idle_clients s).isEmpty ∨ ¬ s.roundwise_fixed_availability ∨
        s.availability_latest_round < s.current_round then
      let sA := {s with availability_latest_round := s.current_round}
      let offRes := drawFlags (fun cid => (sA.vars.getD cid default).prob_available)
        (offline_clients sA) sA
      let idleRes := drawFlags (fun cid => (offRes.2.vars.getD cid default).prob_unavailable)
        (idle_clients offRes.2) offRes.2
      let new_idle := (offRes.1.filter (fun p => p.2)).map (fun p => p.1)
      let new_offline := (idleRes.1.filter (fun p => p.2)).map (fun p => p.1)
      set_client_state (set_client_state idleRes.2 new_idle .idle) new_offline .offline
    else s
  (dropped_clients s1).foldl flushDroppedOne s1

/-- `range(delta_t)` iterations of `flush` inside `ElemClock.step`. -/
def flushIter : Sys → Nat → Sys
  | s, 0 => s
  | s, k + 1 => flushIter (flush s) k

/-- `ElemClock.step(delta_t)`: rejects negative `delta_t`; otherwise invokes
the registered state updater's `flush` once per unit and advances the time. -/
def clock_step (s : Sys) (delta_t : Int) : Except String Sys :=
  if delta_t < 0 then .error "Cannot inverse time of system_simulator.cfg.clock."
  else .ok (let s' := flushIter s delta_t.toNat; {s' with time := s'.time + delta_t})

/-- `ElemClock.set_time(t)`: rejects `t` earlier than the current time; does
not trigger `flush`. -/
def set_time (s : Sys) (t : Int) : Except String Sys :=
  if t < s.time then .error "Cannot inverse time of system_simulator.cfg.clock."
  else .ok {s with time := t}

/-! ## Round-protocol decorators -/

/-- `cfg.clock.step()` with the default `delta_t = 1` (used in the
wait-for-availability loop): one `flush`, then advance the time by one. -/
def step_one (s : Sys) : Sys :=
  let s' := flush s
  {s' with time := s'.time + 1}

theorem clock_step_one (s : Sys) : clock_step s 1 = .ok (step_one s) := by
  simp [clock_step, step_one, flushIter]

/-- The body of `sample_with_availability` once the idle set is nonempty:
invoke the wrapped selection function once, record and exclude the
selected-but-unavailable clients, mark the survivors `selected`, and return
them preserving the selection order. -/
def samplePhase (sample : Sys → List Nat × Sys) (s : Sys) : List Nat × Sys :=
  let available_clients := idle_clients s
  let res := sample s
  let eff := res.1.filter (fun cid => decide (cid ∈ available_clients))
  let unavailable := res.1.filter (fun cid => decide (¬ cid ∈ available_clients))
  let s2 := {res.2 with unavailable_selected := unavailable}
  (eff, set_client_state s2 eff .selected)

/-- `sample_with_availability`: while the idle set is empty, advance the
clock one unit at a time (each advance flushing).  The source loop may not
terminate; `fuel` bounds the number of advances and `none` models
non-termination within the bound. -/
def sample_with_availability (fuel : Nat) (sample : Sys → List Nat × Sys) (s : Sys) :
    Option (List Nat × Sys) :=
  match fuel with
  | 0 => if (idle_clients s).isEmpty then none else some (samplePhase sample s)
  | k + 1 =>
    if (idle_clients s).isEmpty then sample_with_availability k sample (step_one s)
    else some (samplePhase sample s)

/-- `communicate_with_dropout(selected_clients, asynchronous)` wrapping an
inner communicate function (`update_client_connectivity` is a no-op): one
draw per selected client in order, a client drops on `rand <= prob_drop`;
record the dropped list on the server, mark them `dropped`, and pass only the
survivors on.  With an empty selection, pass through unchanged (the recorded
`_dropped_selected_clients` attribute is not touched). -/
def communicate_with_dropout (inner : Sys → List Nat → Bool → Option (List Pkg × Sys))
    (s : Sys) (selected_clients : List Nat) (asynchronous : Bool) :
    Option (List Pkg × Sys) :=
  if selected_clients ≠ [] then
    let res := drawFlags (fun cid => (s.vars.getD cid default).prob_drop) selected_clients s
    let dropped := (res.1.filter (fun p => p.2)).map (fun p => p.1)
    let s2 := {res.2 with dropped_selected := some dropped}
    let s3 := set_client_state s2 dropped .dropped
    inner s3 (selected_clients.filter (fun cid => decide (¬ cid ∈ dropped))) asynchronous
  else inner s selected_clients asynchronous

/-- Python `max` over a nonempty int list. -/
def listMax : List Int → Int
  | [] => 0
  | x :: xs => xs.foldl max x

/-- The dict `{pkg['__cid']: pkg for pkg in pkgs}` indexed at `cid`: comprehension
order means a later package with the same `__cid` overwrites an earlier one. -/
def pkg_map (pkgs : List Pkg) (cid : Nat) : Pkg :=
  (pkgs.filter (fun pkg => decide (pkg.cid = cid))).getLastD default

/-- `communicate_with_clock` wrapping the raw communicate function `comm`.
`comm` is modelled as returning one opaque package body per listed client,
aligned with the id list (the source receives a columnar dict and transposes
it into exactly that list).  The measured-size bookkeeping (`__model_size`,
`__upload_package_size`, `__download_package_size`) is written to variables no
base-class code ever reads (`update_client_responsiveness` and
`update_client_completeness` are no-ops) and is omitted.  `none` models an
uncaught exception: `clock.step` rejecting a negative wait, or reading the
never-assigned `_dropped_selected_clients` attribute. -/
def communicate_with_clock (comm : Sys → List Nat → Bool → List Nat × Sys)
    (s : Sys) (selected_clients : List Nat) (asynchronous : Bool) :
    Option (List Pkg × Sys) :=
  let res := comm s selected_clients asynchronous
  let s0 := res.2
  let tolerance_for_latency := s0.tolerance_for_latency
  if ¬ asynchronous ∧ selected_clients = [] then
    match s0.dropped_selected with
    | some l =>
      if ¬ l.isEmpty then
        match clock_step s0 tolerance_for_latency with
        | .ok s1 => some ([], s1)
        | .error _ => none
      else some ([], s0)
    | none => some ([], s0)
  else
    let s2 :=
      if selected_clients ≠ [] then
        let latency := selected_clients.map (fun cid => (s0.vars.getD cid default).latency)
        let s1 := set_client_state s0 selected_clients .working
        let pkgs := (res.1.zip (selected_clients.zip latency)).map
          (fun p => Pkg.mk p.1 p.2.1 (s1.time + p.2.2))
        {s1 with q := pkgs.foldl (fun qq pi => put qq pi pi.t) s1.q}
      else s0
    if asynchronous then
      let effr := get_until s2.q s2.time
      let eff_cids := effr.1.map (fun pkg => pkg.cid)
      let s3 := set_client_state {s2 with q := effr.2} eff_cids .offline
      some (effr.1, {s3 with received_clients := effr.1.map (fun pkg => pkg.cid)})
    else
      match s2.dropped_selected with
      | none => none
      | some d =>
        let max_latency := listMax (selected_clients.map
          (fun cid => (s2.vars.getD cid default).latency))
        let any_drop := ¬ d.isEmpty
        let any_overdue := tolerance_for_latency < max_latency
        let delta_t := if any_drop ∨ any_overdue then tolerance_for_latency else max_latency
        let effr := get_until s2.q (s2.time + delta_t)
        match clock_step {s2 with q := effr.2} delta_t with
        | .error _ => none
        | .ok s3 =>
          let eff_cids := effr.1.map (fun pkg => pkg.cid)
          let overdue := (selected_clients.filter
            (fun cid => decide (¬ cid ∈ eff_cids))).dedup
          let s4 := {s3 with overdue_clients := overdue}
          let s5 :=
            if ¬ overdue.isEmpty then
              set_client_state {s4 with
                q := conditionally_clear s4.q (fun pkg => decide (pkg.cid ∈ overdue))}
                overdue .idle
            else s4
          let eff_pkgs := (selected_clients.filter
            (fun cid => decide (cid ∈ eff_cids))).map (fun cid => pkg_map effr.1 cid)
          let s6 := set_client_state s5 eff_cids .offline
          some (eff_pkgs, {s6 with received_clients := eff_pkgs.map (fun pkg => pkg.cid)})

/-- The client object as seen by `with_completeness`: its configured
`num_steps` and the mirrored `_working_amount` attribute. -/
structure Client where
  num_steps : Nat
  working_amount : Nat
  deriving DecidableEq, Repr

/-- `with_completeness`'s `train_with_incomplete_update`: swap
`working_amount` in as `num_steps`, call the wrapped train function (which may
mutate the client and may fail), and write the old `num_steps` back — but only
on the normal-return path: the source has no `try`/`finally`, so on an
exception the restoring assignment is skipped and the error propagates. -/
def train_with_incomplete_update {ε ρ : Type} (train : Client → Except ε ρ × Client)
    (c : Client) : Except ε ρ × Client :=
  let old_num_steps := c.num_steps
  let c1 := {c with num_steps := c.working_amount}
  let res := train c1
  match res.1 with
  | .ok r => (.ok r, {res.2 with num_steps := old_num_steps})
  | .error e => (.error e, res.2)

/-! ## Helper lemmas about the state machine -/

theorem getD_set_self' {β : Type} [Inhabited β] {l : List β} {i : Nat}
    (h : i < l.length) (a : β) : (l.set i a).getD i default = a := by
  simp [List.getElem?_set_self h]

theorem getD_set_ne' {β : Type} [Inhabited β] {l : List β} {i j : Nat}
    (h : i ≠ j) (a : β) : (l.set i a).getD j default = l.getD j default := by
  simp [List.getElem?_set_ne h]

/-- Pointwise description of a fold of index assignments whose written value
depends only on the index. -/
theorem foldl_set_getD {β : Type} [Inhabited β] (f : Nat → β) (ids : List Nat) :
    ∀ (l : List β) (cid : Nat),
    (ids.foldl (fun acc i => acc.set i (f i)) l).getD cid default =
      if cid ∈ ids ∧ cid < l.length then f cid else l.getD cid default := by
  induction ids with
  | nil => intro l cid; simp
  | cons i is ih =>
    intro l cid
    show (is.foldl (fun acc i => acc.set i (f i)) (l.set i (f i))).getD cid default = _
    rw [ih, List.length_set]
    by_cases hlen : cid < l.length
    · by_cases hmem : cid ∈ is
      · rw [if_pos ⟨hmem, hlen⟩, if_pos ⟨List.mem_cons_of_mem i hmem, hlen⟩]
      · rw [if_neg (fun hh => hmem hh.1)]
        by_cases hci : cid = i
        · subst hci
          rw [getD_set_self' hlen, if_pos ⟨List.mem_cons_self cid is, hlen⟩]
        · rw [getD_set_ne' (fun hh => hci hh.symm),
            if_neg (fun hh => by rcases List.mem_cons.mp hh.1 with h1 | h1 <;> tauto)]
    · rw [if_neg (fun hh => hlen hh.2), if_neg (fun hh => hlen hh.2)]
      by_cases hci : cid = i
      · subst hci
        rw [List.set_eq_of_length_le (by omega)]
      · rw [getD_set_ne' (fun hh => hci hh.symm)]

theorem foldl_set_length {β : Type} (f : Nat → β) (ids : List Nat) :
    ∀ l : List β, (ids.foldl (fun acc i => acc.set i (f i)) l).length = l.length := by
  induction ids with
  | nil => intro l; rfl
  | cons i is ih =>
    intro l
    show (is.foldl (fun acc i => acc.set i (f i)) (l.set i (f i))).length = _
    rw [ih, List.length_set]

theorem set_states_getD (states : List CState) (ids : List Nat) (st : CState) (cid : Nat) :
    (set_states states ids st).getD cid default =
      if cid ∈ ids ∧ cid < states.length then st else states.getD cid default :=
  foldl_set_getD (fun _ => st) ids states cid

theorem set_states_length (states : List CState) (ids : List Nat) (st : CState) :
    (set_states states ids st).length = states.length :=
  foldl_set_length (fun _ => st) ids states

theorem set_client_state_states (s : Sys) (ids : List Nat) (st : CState) :
    (set_client_state s ids st).client_states = set_states s.client_states ids st := by
  cases st <;> rfl

theorem set_client_state_counter (s : Sys) (ids : List Nat) (st : CState) (cid : Nat) :
    (set_client_state s ids st).state_counter.getD cid default =
      if cid ∈ ids ∧ cid < s.state_counter.length then
        (match st with
          | .dropped => (⟨s.tolerance_for_latency, 0⟩ : Counter)
          | .working => ⟨0, (s.vars.getD cid default).latency⟩
          | .idle => ⟨0, 0⟩
          | _ => s.state_counter.getD cid default)
      else s.state_counter.getD cid default := by
  cases st
  case dropped =>
    exact foldl_set_getD (fun _ => (⟨s.tolerance_for_latency, 0⟩ : Counter)) ids
      s.state_counter cid
  case working =>
    exact foldl_set_getD (fun i => (⟨0, (s.vars.getD i default).latency⟩ : Counter)) ids
      s.state_counter cid
  case idle =>
    exact foldl_set_getD (fun _ => (⟨0, 0⟩ : Counter)) ids s.state_counter cid
  case offline => split <;> rfl
  case selected => split <;> rfl

theorem set_client_state_vars (s : Sys) (ids : List Nat) (st : CState) :
    (set_client_state s ids st).vars = s.vars := by cases st <;> rfl

theorem set_client_state_time (s : Sys) (ids : List Nat) (st : CState) :
    (set_client_state s ids st).time = s.time := by cases st <;> rfl

theorem set_client_state_q (s : Sys) (ids : List Nat) (st : CState) :
    (set_client_state s ids st).q = s.q := by cases st <;> rfl

theorem set_client_state_rand (s : Sys) (ids : List Nat) (st : CState) :
    (set_client_state s ids st).rand = s.rand := by cases st <;> rfl

theorem set_client_state_rand_idx (s : Sys) (ids : List Nat) (st : CState) :
    (set_client_state s ids st).rand_idx = s.rand_idx := by cases st <;> rfl

theorem set_client_state_round (s : Sys) (ids : List Nat) (st : CState) :
    (set_client_state s ids st).current_round = s.current_round := by cases st <;> rfl

theorem set_client_state_tol (s : Sys) (ids : List Nat) (st : CState) :
    (set_client_state s ids st).tolerance_for_latency = s.tolerance_for_latency := by
  cases st <;> rfl

theorem set_client_state_roundwise (s : Sys) (ids : List Nat) (st : CState) :
    (set_client_state s ids st).roundwise_fixed_availability =
      s.roundwise_fixed_availability := by cases st <;> rfl

theorem set_client_state_latest (s : Sys) (ids : List Nat) (st : CState) :
    (set_client_state s ids st).availability_latest_round =
      s.availability_latest_round := by cases st <;> rfl

theorem set_client_state_dropped_sel (s : Sys) (ids : List Nat) (st : CState) :
    (set_client_state s ids st).dropped_selected = s.dropped_selected := by cases st <;> rfl

theorem set_client_state_counter_length (s : Sys) (ids : List Nat) (st : CState) :
    (set_client_state s ids st).state_counter.length = s.state_counter.length := by
  cases st
  case dropped => exact foldl_set_length _ ids _
  case working => exact foldl_set_length _ ids _
  case idle => exact foldl_set_length _ ids _
  all_goals rfl

theorem set_client_state_states_length (s : Sys) (ids : List Nat) (st : CState) :
    (set_client_state s ids st).client_states.length = s.client_states.length := by
  rw [set_client_state_states, set_states_length]

/-- Membership in `get_client_with_state`. -/
theorem mem_get_client_with_state (s : Sys) (st : CState) (cid : Nat) :
    cid ∈ get_client_with_state s st ↔
      cid < s.client_states.length ∧ s.client_states.getD cid default = st := by
  unfold get_client_with_state
  constructor
  · intro h
    obtain ⟨p, hp, hp1⟩ := List.mem_map.mp h
    obtain ⟨hpe, hps⟩ := List.mem_filter.mp hp
    have hget := List.mem_enum_iff_get?.mp hpe
    have hst : p.2 = st := by simpa using hps
    subst hp1
    have hlt : p.1 < s.client_states.length := by
      by_contra hge
      rw [List.get?_eq_none.mpr (by omega)] at hget
      exact Option.noConfusion hget
    refine ⟨hlt, ?_⟩
    rw [← hst]
    have := List.get?_eq_get (l := s.client_states) hlt
    rw [this] at hget
    have hv : s.client_states.get ⟨p.1, hlt⟩ = p.2 := by
      injection hget
    simp [List.getD_eq_getElem?_getD, List.getElem?_eq_getElem hlt]
    rw [← hv]
    rfl
  · intro ⟨hlt, hst⟩
    refine List.mem_map.mpr ⟨(cid, st), ?_, rfl⟩
    refine List.mem_filter.mpr ⟨?_, by simp⟩
    refine List.mem_enum_iff_get?.mpr ?_
    show s.client_states.get? cid = some st
    rw [List.get?_eq_get hlt]
    rw [← hst]
    simp [List.getD_eq_getElem?_getD, List.getElem?_eq_getElem hlt]

theorem drawFlags_state (probOf : Nat → ℚ) (ids : List Nat) :
    ∀ s : Sys, (drawFlags probOf ids s).2 = {s with rand_idx := s.rand_idx + ids.length} := by
  induction ids with
  | nil =>
    intro s
    show s = _
    cases s
    simp
  | cons i is ih =>
    intro s
    show (drawFlags probOf is (randnext s)).2 = _
    rw [ih]
    show {s with rand_idx := s.rand_idx + 1 + is.length} = _
    cases s
    simp
    omega

theorem drawFlags_fst (probOf : Nat → ℚ) (ids : List Nat) :
    ∀ s : Sys, (drawFlags probOf ids s).1.map (fun p => p.1) = ids := by
  induction ids with
  | nil => intro s; rfl
  | cons i is ih =>
    intro s
    show ((i, decide (randval s ≤ probOf i)) ::
      (drawFlags probOf is (randnext s)).1).map (fun p => p.1) = i :: is
    rw [List.map_cons, ih]

theorem flushDroppedOne_time (s : Sys) (cid : Nat) : (flushDroppedOne s cid).time = s.time := by
  simp only [flushDroppedOne]
  split
  · split <;> (rw [set_client_state_time]; rfl)
  · rfl

theorem foldl_flushDroppedOne_time (ids : List Nat) :
    ∀ s : Sys, (ids.foldl flushDroppedOne s).time = s.time := by
  induction ids with
  | nil => intro s; rfl
  | cons i is ih =>
    intro s
    show (is.foldl flushDroppedOne (flushDroppedOne s i)).time = s.time
    rw [ih, flushDroppedOne_time]

theorem flush_time (s : Sys) : (flush s).time = s.time := by
  simp only [flush]
  rw [foldl_flushDroppedOne_time]
  split
  · simp [set_client_state_time, drawFlags_state]
  · rfl

theorem flushIter_time : ∀ (k : Nat) (s : Sys), (flushIter s k).time = s.time := by
  intro k
  induction k with
  | zero => intro s; rfl
  | succ k ih =>
    intro s
    show (flushIter (flush s) k).time = s.time
    rw [ih, flush_time]

theorem clock_step_ok {s : Sys} {d : Int} {s' : Sys} (h : clock_step s d = .ok s') :
    0 ≤ d ∧ s'.time = s.time + d := by
  unfold clock_step at h
  split at h
  · exact absurd h (by simp)
  · next hd =>
    refine ⟨by omega, ?_⟩
    injection h with h
    rw [← h]
    show (flushIter s d.toNat).time + d = s.time + d
    rw [flushIter_time]

theorem set_time_ok {s : Sys} {t : Int} {s' : Sys} (h : set_time s t = .ok s') :
    s.time ≤ s'.time ∧ s'.time = t := by
  unfold set_time at h
  split at h
  · exact absurd h (by simp)
  · next ht =>
    injection h with h
    constructor
    · rw [← h]
      show s.time ≤ t
      omega
    · rw [← h]

/-! ## Claims about the clock (C6, C9) and `with_completeness` (C3) -/

/-- Clock operations of the claim C6: `step` (advance) and `set_time`. -/
inductive ClockOp where
  | advance (delta_t : Int)
  | setTime (t : Int)

def applyClockOp (s : Sys) (op : ClockOp) : Except String Sys :=
  match op with
  | .advance d => clock_step s d
  | .setTime t => set_time s t

/-- Run a sequence of clock calls; a raised `RuntimeError` aborts the run
with the state unchanged by the failing call. -/
def execClockOps (s : Sys) : List ClockOp → Sys
  | [] => s
  | op :: ops =>
    match applyClockOp s op with
    | .ok s' => execClockOps s' ops
    | .error _ => s

/-- C6: over any sequence of `step`/`set_time` calls the clock time is
non-decreasing; a `step` with negative `delta_t` and a `set_time` into the
past each raise the time-inversion `RuntimeError` and leave the time (indeed
the whole state) unchanged. -/
theorem C6_time_monotone (s : Sys) (ops : List ClockOp) :
    s.time ≤ (execClockOps s ops).time ∧
    (∀ d : Int, d < 0 →
      clock_step s d = .error "Cannot inverse time of system_simulator.cfg.clock." ∧
      execClockOps s [.advance d] = s) ∧
    (∀ t : Int, t < s.time →
      set_time s t = .error "Cannot inverse time of system_simulator.cfg.clock." ∧
      execClockOps s [.setTime t] = s) := by
  refine ⟨?_, ?_, ?_⟩
  · induction ops generalizing s with
    | nil => exact le_refl _
    | cons op rest ih =>
      show s.time ≤ (match applyClockOp s op with
        | .ok s' => execClockOps s' rest
        | .error _ => s).time
      cases hop : applyClockOp s op with
      | ok s' =>
        refine le_trans ?_ (ih s')
        cases op with
        | advance d =>
          obtain ⟨hd, ht⟩ := clock_step_ok hop
          omega
        | setTime t => exact (set_time_ok hop).1
      | error e => exact le_refl _
  · intro d hd
    have herr : clock_step s d =
        .error "Cannot inverse time of system_simulator.cfg.clock." := by
      unfold clock_step
      rw [if_pos hd]
    refine ⟨herr, ?_⟩
    show (match applyClockOp s (.advance d) with
      | .ok s' => execClockOps s' [] | .error _ => s) = s
    show (match clock_step s d with | .ok s' => execClockOps s' [] | .error _ => s) = s
    rw [herr]
  · intro t ht
    have herr : set_time s t =
        .error "Cannot inverse time of system_simulator.cfg.clock." := by
      unfold set_time
      rw [if_pos ht]
    refine ⟨herr, ?_⟩
    show (match set_time s t with | .ok s' => execClockOps s' [] | .error _ => s) = s
    rw [herr]

/-- A concrete one-client system for witnesses. -/
def sys0 : Sys where
  client_states := [.idle]
  vars := [⟨1, 0, 0, 0, 0⟩]
  state_counter := [⟨0, 0⟩]
  roundwise_fixed_availability := false
  availability_latest_round := -1
  current_round := 0
  tolerance_for_latency := 5
  rand := fun _ => 1
  rand_idx := 0
  time := 0
  q := []
  unavailable_selected := []
  dropped_selected := none
  overdue_clients := []
  received_clients := []

theorem C6_time_monotone_witness :
    sys0.time ≤ (execClockOps sys0 [.advance 2, .setTime 7]).time ∧
    ((-1 : Int) < 0 ∧
      clock_step sys0 (-1) = .error "Cannot inverse time of system_simulator.cfg.clock.") ∧
    ((-3 : Int) < sys0.time ∧
      set_time sys0 (-3) = .error "Cannot inverse time of system_simulator.cfg.clock.") :=
  ⟨(C6_time_monotone sys0 [.advance 2, .setTime 7]).1,
    ⟨by decide, ((C6_time_monotone sys0 []).2.1 (-1) (by decide)).1⟩,
    ⟨by decide, ((C6_time_monotone sys0 []).2.2 (-3) (by decide)).1⟩⟩

/-- C9 counterexample: `ElemClock.put` performs no time validation at all.
Inserting at the negative time `-1` does not fail: the element is enqueued and
is released again by `get_until(-1)`. -/
theorem C9_put_negative_counterexample :
    put ([] : List (Elem Pkg)) (Pkg.mk 0 0 0) (-1) = [⟨Pkg.mk 0 0 0, -1⟩] ∧
    (get_until (put ([] : List (Elem Pkg)) (Pkg.mk 0 0 0) (-1)) (-1)).1 = [Pkg.mk 0 0 0] := by
  constructor
  · simp [put, heappush, siftdownLoop_eq]
  · simp [put, heappush, siftdownLoop_eq, get_until, getUntilAux, heappop, siftup,
      siftupLoop_eq, chosenChild, nth_eq]

/-- C9 amended: `put` never fails; for every payload and every time value —
negative times included — it simply inserts the element into the queue. -/
theorem C9_put_amended {q : List (Elem Pkg)} (hq : IsHeap q) (x : Pkg) (time : Int) :
    IsHeap (put q x time) ∧ (put q x time).Perm (⟨x, time⟩ :: q) :=
  heappush_spec hq ⟨x, time⟩

theorem C9_put_amended_witness :
    IsHeap (put ([⟨Pkg.mk 1 1 4, 4⟩] : List (Elem Pkg)) (Pkg.mk 0 0 (-2)) (-2)) ∧
    (put ([⟨Pkg.mk 1 1 4, 4⟩] : List (Elem Pkg)) (Pkg.mk 0 0 (-2)) (-2)).Perm
      (⟨Pkg.mk 0 0 (-2), -2⟩ :: [⟨Pkg.mk 1 1 4, 4⟩]) :=
  C9_put_amended (by decide) (Pkg.mk 0 0 (-2)) (-2)

/-- C3 counterexample: the source restores `num_steps` only on the normal
return path (there is no `try`/`finally`).  A wrapped train function that
fails leaves `num_steps` at `working_amount` (3), not at its prior value (5). -/
theorem C3_restore_counterexample :
    (train_with_incomplete_update (fun c => ((Except.error 0 : Except Nat Nat), c))
      ⟨5, 3⟩).2.num_steps = 3 ∧ (3 : Nat) ≠ 5 := by
  exact ⟨rfl, by decide⟩

/-- C3 amended: on a normal return the wrapper restores the original
`num_steps` (whatever the wrapped function did to it); when the wrapped
function raises, the error propagates with the client exactly as the wrapped
function left it — `num_steps` still overridden to `working_amount` unless the
wrapped function itself changed it. -/
theorem C3_restore_amended {ε ρ : Type} (train : Client → Except ε ρ × Client) (c : Client) :
    (∀ (r : ρ) (c' : Client), train_with_incomplete_update train c = (.ok r, c') →
      c'.num_steps = c.num_steps) ∧
    (∀ (e : ε) (c' : Client), train_with_incomplete_update train c = (.error e, c') →
      c' = (train {c with num_steps := c.working_amount}).2) := by
  constructor
  · intro r c' h
    simp only [train_with_incomplete_update] at h
    split at h
    · injection h with h1 h2
      rw [← h2]
    · exact absurd h (by simp)
  · intro e c' h
    simp only [train_with_incomplete_update] at h
    split at h
    · exact absurd h (by simp)
    · injection h with h1 h2
      rw [← h2]

theorem C3_restore_amended_witness :
    (train_with_incomplete_update
      (fun c => ((Except.ok 7 : Except Nat Nat), {c with num_steps := 99}))
      ⟨5, 3⟩).2.num_steps = 5 :=
  (C3_restore_amended (fun c => ((Except.ok 7 : Except Nat Nat), {c with num_steps := 99}))
    ⟨5, 3⟩).1 7 ⟨5, 3⟩ rfl

/-- C5 counterexample: `queue.PriorityQueue` is `heapq` under `Elem.__lt__`,
which compares `time` only — it is NOT stable.  Inserting payloads
`0, 1, 2, 3, 4` all with arrival time `0` and then `pop_until(0)` releases
them in heap order `0, 2, 4, 1, 3`, not in insertion order `0, 1, 2, 3, 4`. -/
theorem C5_tie_order_counterexample :
    (get_until ([Pkg.mk 0 0 0, Pkg.mk 1 1 0, Pkg.mk 2 2 0, Pkg.mk 3 3 0].foldl
      (fun qq p => put qq p 0) []) 0).1.map (fun p => p.body) = [0, 2, 1, 3] ∧
    ([0, 2, 1, 3] : List Nat) ≠ [0, 1, 2, 3] := by
  have h1 : put ([] : List (Elem Pkg)) (Pkg.mk 0 0 0) 0 = [⟨Pkg.mk 0 0 0, 0⟩] := by
    simp [put, heappush, siftdownLoop_eq, nth_eq]
  have h2 : put [(⟨Pkg.mk 0 0 0, 0⟩ : Elem Pkg)] (Pkg.mk 1 1 0) 0 =
      [⟨Pkg.mk 0 0 0, 0⟩, ⟨Pkg.mk 1 1 0, 0⟩] := by
    simp [put, heappush, siftdownLoop_eq, nth_eq]
  have h3 : put [(⟨Pkg.mk 0 0 0, 0⟩ : Elem Pkg), ⟨Pkg.mk 1 1 0, 0⟩] (Pkg.mk 2 2 0) 0 =
      [⟨Pkg.mk 0 0 0, 0⟩, ⟨Pkg.mk 1 1 0, 0⟩, ⟨Pkg.mk 2 2 0, 0⟩] := by
    simp [put, heappush, siftdownLoop_eq, nth_eq]
  have h4 : put [(⟨Pkg.mk 0 0 0, 0⟩ : Elem Pkg), ⟨Pkg.mk 1 1 0, 0⟩, ⟨Pkg.mk 2 2 0, 0⟩]
      (Pkg.mk 3 3 0) 0 =
      [⟨Pkg.mk 0 0 0, 0⟩, ⟨Pkg.mk 1 1 0, 0⟩, ⟨Pkg.mk 2 2 0, 0⟩, ⟨Pkg.mk 3 3 0, 0⟩] := by
    simp [put, heappush, siftdownLoop_eq, nth_eq]
  have hq : [Pkg.mk 0 0 0, Pkg.mk 1 1 0, Pkg.mk 2 2 0, Pkg.mk 3 3 0].foldl
      (fun qq p => put qq p 0) ([] : List (Elem Pkg)) =
      [⟨Pkg.mk 0 0 0, 0⟩, ⟨Pkg.mk 1 1 0, 0⟩, ⟨Pkg.mk 2 2 0, 0⟩, ⟨Pkg.mk 3 3 0, 0⟩] := by
    show put (put (put (put ([] : List (Elem Pkg)) (Pkg.mk 0 0 0) 0) (Pkg.mk 1 1 0) 0)
      (Pkg.mk 2 2 0) 0) (Pkg.mk 3 3 0) 0 = _
    rw [h1, h2, h3, h4]
  have hp1 : heappop [(⟨Pkg.mk 0 0 0, 0⟩ : Elem Pkg), ⟨Pkg.mk 1 1 0, 0⟩,
      ⟨Pkg.mk 2 2 0, 0⟩, ⟨Pkg.mk 3 3 0, 0⟩] =
      some (⟨Pkg.mk 0 0 0, 0⟩, [⟨Pkg.mk 2 2 0, 0⟩, ⟨Pkg.mk 1 1 0, 0⟩, ⟨Pkg.mk 3 3 0, 0⟩]) := by
    simp [heappop, siftup, siftupLoop_eq, siftdownLoop_eq, chosenChild, nth_eq]
  have hp2 : heappop [(⟨Pkg.mk 2 2 0, 0⟩ : Elem Pkg), ⟨Pkg.mk 1 1 0, 0⟩, ⟨Pkg.mk 3 3 0, 0⟩] =
      some (⟨Pkg.mk 2 2 0, 0⟩, [⟨Pkg.mk 1 1 0, 0⟩, ⟨Pkg.mk 3 3 0, 0⟩]) := by
    simp [heappop, siftup, siftupLoop_eq, siftdownLoop_eq, chosenChild, nth_eq]
  have hp3 : heappop [(⟨Pkg.mk 1 1 0, 0⟩ : Elem Pkg), ⟨Pkg.mk 3 3 0, 0⟩] =
      some (⟨Pkg.mk 1 1 0, 0⟩, [⟨Pkg.mk 3 3 0, 0⟩]) := by
    simp [heappop, siftup, siftupLoop_eq, siftdownLoop_eq, chosenChild, nth_eq]
  have hp4 : heappop [(⟨Pkg.mk 3 3 0, 0⟩ : Elem Pkg)] = some (⟨Pkg.mk 3 3 0, 0⟩, []) := by
    simp [heappop]
  have g1 : getUntilAux [(⟨Pkg.mk 3 3 0, 0⟩ : Elem Pkg)] 0 = ([⟨Pkg.mk 3 3 0, 0⟩], []) := by
    rw [getUntilAux_eq_pop 0 hp4]
    simp [getUntilAux_nil]
  have g2 : getUntilAux [(⟨Pkg.mk 1 1 0, 0⟩ : Elem Pkg), ⟨Pkg.mk 3 3 0, 0⟩] 0 =
      ([⟨Pkg.mk 1 1 0, 0⟩, ⟨Pkg.mk 3 3 0, 0⟩], []) := by
    rw [getUntilAux_eq_pop 0 hp3]
    simp [g1]
  have g3 : getUntilAux [(⟨Pkg.mk 2 2 0, 0⟩ : Elem Pkg), ⟨Pkg.mk 1 1 0, 0⟩,
      ⟨Pkg.mk 3 3 0, 0⟩] 0 =
      ([⟨Pkg.mk 2 2 0, 0⟩, ⟨Pkg.mk 1 1 0, 0⟩, ⟨Pkg.mk 3 3 0, 0⟩], []) := by
    rw [getUntilAux_eq_pop 0 hp2]
    simp [g2]
  have g4 : getUntilAux [(⟨Pkg.mk 0 0 0, 0⟩ : Elem Pkg), ⟨Pkg.mk 1 1 0, 0⟩,
      ⟨Pkg.mk 2 2 0, 0⟩, ⟨Pkg.mk 3 3 0, 0⟩] 0 =
      ([⟨Pkg.mk 0 0 0, 0⟩, ⟨Pkg.mk 2 2 0, 0⟩, ⟨Pkg.mk 1 1 0, 0⟩, ⟨Pkg.mk 3 3 0, 0⟩], []) := by
    rw [getUntilAux_eq_pop 0 hp1]
    simp [g3]
  constructor
  · simp only [get_until, hq, g4]
    rfl
  · decide

/-- C5 amended: for every valid heap queue and every `t`, `get_until(t)`
never returns an element with `arrival_time > t`; the returned elements are
sorted ascending by `arrival_time` (ties in heap order, which need not be
insertion order); and every element not returned — exactly those with
`arrival_time > t` — remains in the queue (still a valid heap). -/
theorem C5_get_until_amended {q : List (Elem Pkg)} (hq : IsHeap q) (t : Int) :
    (∀ e ∈ (getUntilAux q t).1, e.time ≤ t) ∧
    (getUntilAux q t).1.Pairwise (fun a b => a.time ≤ b.time) ∧
    ((getUntilAux q t).1 ++ (getUntilAux q t).2).Perm q ∧
    (∀ e ∈ (getUntilAux q t).2, t < e.time) ∧
    IsHeap (getUntilAux q t).2 ∧
    (get_until q t).1 = (getUntilAux q t).1.map (fun e => e.x) ∧
    (get_until q t).2 = (getUntilAux q t).2 := by
  obtain ⟨h1, h2, h3, h4, h5⟩ := getUntilAux_spec hq t
  exact ⟨h1, h2, h3, h4, h5, rfl, rfl⟩

/-! ## C2: the counter invariant -/

/-- At most one of `dropped_counter`/`latency_counter` is non-zero, for every
client slot. -/
def CounterInvL (l : List Counter) : Prop :=
  ∀ cid, (l.getD cid default).dropped_counter = 0 ∨
    (l.getD cid default).latency_counter = 0

theorem counterInvL_set {l : List Counter} (h : CounterInvL l) {i : Nat} {v : Counter}
    (hv : v.dropped_counter = 0 ∨ v.latency_counter = 0) : CounterInvL (l.set i v) := by
  intro cid
  by_cases hci : cid = i
  · subst hci
    by_cases hlen : cid < l.length
    · rw [getD_set_self' hlen]
      exact hv
    · rw [List.set_eq_of_length_le (by omega)]
      exact h cid
  · rw [getD_set_ne' (fun hh => hci hh.symm)]
    exact h cid

theorem counterInvL_foldl (f : Nat → Counter)
    (hf : ∀ i, (f i).dropped_counter = 0 ∨ (f i).latency_counter = 0) (ids : List Nat) :
    ∀ l, CounterInvL l → CounterInvL (ids.foldl (fun acc i => acc.set i (f i)) l) := by
  induction ids with
  | nil => intro l h; exact h
  | cons i is ih =>
    intro l h
    exact ih (l.set i (f i)) (counterInvL_set h (hf i))

theorem set_client_state_counter_offline (s : Sys) (ids : List Nat) :
    (set_client_state s ids .offline).state_counter = s.state_counter := rfl

theorem set_client_state_counter_selected (s : Sys) (ids : List Nat) :
    (set_client_state s ids .selected).state_counter = s.state_counter := rfl

theorem set_client_state_counter_idle (s : Sys) (ids : List Nat) :
    (set_client_state s ids .idle).state_counter =
      ids.foldl (fun acc i => acc.set i (⟨0, 0⟩ : Counter)) s.state_counter := rfl

theorem set_client_state_inv {s : Sys} (h : CounterInvL s.state_counter)
    (ids : List Nat) (st : CState) :
    CounterInvL (set_client_state s ids st).state_counter := by
  intro cid
  rw [set_client_state_counter]
  split
  · cases st
    case offline => exact h cid
    case selected => exact h cid
    case idle => exact Or.inl rfl
    case working => exact Or.inl rfl
    case dropped => exact Or.inr rfl
  · exact h cid

theorem set_client_latency_counter_inv {s : Sys} (h : CounterInvL s.state_counter)
    (ids : List Nat) : CounterInvL (set_client_latency_counter s ids).state_counter :=
  counterInvL_foldl (fun i => (⟨0, (s.vars.getD i default).latency⟩ : Counter))
    (fun _ => Or.inl rfl) ids s.state_counter h

theorem set_client_dropped_counter_inv {s : Sys} (h : CounterInvL s.state_counter)
    (ids : List Nat) : CounterInvL (set_client_dropped_counter s ids).state_counter :=
  counterInvL_foldl (fun _ => (⟨s.tolerance_for_latency, 0⟩ : Counter))
    (fun _ => Or.inr rfl) ids s.state_counter h

theorem reset_client_counter_inv {s : Sys} (h : CounterInvL s.state_counter)
    (ids : List Nat) : CounterInvL (reset_client_counter s ids).state_counter :=
  counterInvL_foldl (fun _ => (⟨0, 0⟩ : Counter)) (fun _ => Or.inl rfl) ids s.state_counter h

theorem drawFlags_counter (probOf : Nat → ℚ) (ids : List Nat) (s : Sys) :
    (drawFlags probOf ids s).2.state_counter = s.state_counter := by
  rw [drawFlags_state]

theorem flushDroppedOne_inv {s : Sys} (h : CounterInvL s.state_counter) (cid : Nat) :
    CounterInvL (flushDroppedOne s cid).state_counter := by
  simp only [flushDroppedOne]
  split
  · next hneg =>
    have h2 : CounterInvL ((s.state_counter.set cid
        ⟨(s.state_counter.getD cid default).dropped_counter - 1,
          (s.state_counter.getD cid default).latency_counter⟩).set cid
        ⟨0, (s.state_counter.getD cid default).latency_counter⟩) := by
      rw [List.set_set]
      exact counterInvL_set h (Or.inl rfl)
    split
    · rw [set_client_state_counter_offline]
      exact h2
    · rw [set_client_state_counter_idle]
      exact counterInvL_foldl (fun _ => (⟨0, 0⟩ : Counter)) (fun _ => Or.inl rfl) [cid] _ h2
  · next hpos =>
    intro cid'
    by_cases hci : cid' = cid
    · subst hci
      by_cases hlen : cid' < s.state_counter.length
      · rw [getD_set_self' hlen]
        rcases h cid' with hd | hl
        · exact absurd (by simp only [hd]; decide) hpos
        · exact Or.inr (by simp only [hl])
      · rw [List.set_eq_of_length_le (by omega)]
        exact h cid'
    · rw [getD_set_ne' (fun hh => hci hh.symm)]
      exact h cid'

theorem foldl_flushDroppedOne_inv (ids : List Nat) :
    ∀ {s : Sys}, CounterInvL s.state_counter →
      CounterInvL (ids.foldl flushDroppedOne s).state_counter := by
  induction ids with
  | nil => intro s h; exact h
  | cons i is ih =>
    intro s h
    exact ih (flushDroppedOne_inv h i)

theorem flush_inv {s : Sys} (h : CounterInvL s.state_counter) :
    CounterInvL (flush s).state_counter := by
  simp only [flush]
  apply foldl_flushDroppedOne_inv
  split
  · apply set_client_state_inv
    apply set_client_state_inv
    rw [drawFlags_counter, drawFlags_counter]
    exact h
  · exact h

/-- The state-machine operations of claim C2. -/
inductive SUOp where
  | setState (ids : List Nat) (st : CState)
  | setLatencyCounter (ids : List Nat)
  | setDroppedCounter (ids : List Nat)
  | resetCounter (ids : List Nat)
  | flushOp

def applySUOp (s : Sys) : SUOp → Sys
  | .setState ids st => set_client_state s ids st
  | .setLatencyCounter ids => set_client_latency_counter s ids
  | .setDroppedCounter ids => set_client_dropped_counter s ids
  | .resetCounter ids => reset_client_counter s ids
  | .flushOp => flush s

def execSUOps (s : Sys) (ops : List SUOp) : Sys := ops.foldl applySUOp s

/-- `BasicStateUpdater.__init__`: all clients `idle`, both counters zero.
The per-client variables and the server handle are configuration inputs. -/
def initSys (n : Nat) (vs : List ClientVars) (round tol : Int) (roundwise : Bool)
    (rand : Nat → ℚ) : Sys where
  client_states := List.replicate n .idle
  vars := vs
  state_counter := List.replicate n ⟨0, 0⟩
  roundwise_fixed_availability := roundwise
  availability_latest_round := -1
  current_round := round
  tolerance_for_latency := tol
  rand := rand
  rand_idx := 0
  time := 0
  q := []
  unavailable_selected := []
  dropped_selected := none
  overdue_clients := []
  received_clients := []

theorem applySUOp_inv {s : Sys} (h : CounterInvL s.state_counter) (op : SUOp) :
    CounterInvL (applySUOp s op).state_counter := by
  cases op with
  | setState ids st => exact set_client_state_inv h ids st
  | setLatencyCounter ids => exact set_client_latency_counter_inv h ids
  | setDroppedCounter ids => exact set_client_dropped_counter_inv h ids
  | resetCounter ids => exact reset_client_counter_inv h ids
  | flushOp => exact flush_inv h

/-- C2: from a freshly constructed state updater, after any sequence of
`set_client_state` / counter-setter / `flush` operations, no client ever has
both counters non-zero; and the entry actions are as claimed — entering
`dropped` zeroes `latency_counter` and sets `dropped_counter` to the server
tolerance, entering `working` zeroes `dropped_counter` and sets
`latency_counter` to the client's `latency` variable, entering `idle` zeroes
both. -/
theorem C2_counter_invariant (n : Nat) (vs : List ClientVars) (round tol : Int)
    (roundwise : Bool) (rand : Nat → ℚ) (ops : List SUOp) :
    CounterInvL (execSUOps (initSys n vs round tol roundwise rand) ops).state_counter ∧
    (∀ (s : Sys) (ids : List Nat) (cid : Nat), cid ∈ ids → cid < s.state_counter.length →
      (set_client_state s ids .dropped).state_counter.getD cid default =
        ⟨s.tolerance_for_latency, 0⟩ ∧
      (set_client_state s ids .working).state_counter.getD cid default =
        ⟨0, (s.vars.getD cid default).latency⟩ ∧
      (set_client_state s ids .idle).state_counter.getD cid default = ⟨0, 0⟩) := by
  constructor
  · have hinit : CounterInvL (initSys n vs round tol roundwise rand).state_counter := by
      intro cid
      left
      show ((List.replicate n (⟨0, 0⟩ : Counter)).getD cid default).dropped_counter = 0
      by_cases hlt : cid < n
      · rw [List.getD_eq_getElem?_getD, List.getElem?_eq_getElem (by simpa using hlt)]
        simp
      · rw [List.getD_eq_getElem?_getD, List.getElem?_eq_none (by simpa using hlt)]
        rfl
    have H : ∀ (ops : List SUOp) (s : Sys), CounterInvL s.state_counter →
        CounterInvL (execSUOps s ops).state_counter := by
      intro ops
      induction ops with
      | nil => intro s h; exact h
      | cons op rest ih =>
        intro s h
        exact ih (applySUOp s op) (applySUOp_inv h op)
    exact H ops _ hinit
  · intro s ids cid hmem hlen
    refine ⟨?_, ?_, ?_⟩ <;> rw [set_client_state_counter, if_pos ⟨hmem, hlen⟩]

theorem C2_counter_invariant_witness :
    CounterInvL (execSUOps (initSys 1 [⟨1, 0, 0, 0, 2⟩] 0 5 false (fun _ => 1))
      [.setState [0] .working, .flushOp]).state_counter ∧
    ((0 : Nat) ∈ [0] ∧ 0 < sys0.state_counter.length ∧
      (set_client_state sys0 [0] .dropped).state_counter.getD 0 default =
        ⟨sys0.tolerance_for_latency, 0⟩) :=
  ⟨(C2_counter_invariant 1 [⟨1, 0, 0, 0, 2⟩] 0 5 false (fun _ => 1)
      [.setState [0] .working, .flushOp]).1,
    by decide, by decide,
    ((C2_counter_invariant 1 [] 0 5 false (fun _ => 1) []).2 sys0 [0] 0
      (by decide) (by decide)).1⟩

/-! ## C4: flush under round-fixed availability -/

/-- When round-fixed availability is on, the round has not advanced, at least
one client is idle, and no client is in `dropped`, `flush` is the identity. -/
theorem flush_fixed_noop {s : Sys} (hidle : idle_clients s ≠ [])
    (hrw : s.roundwise_fixed_availability = true)
    (hlr : s.availability_latest_round = s.current_round)
    (hdrop : dropped_clients s = []) : flush s = s := by
  simp only [flush]
  rw [if_neg ?hc]
  case hc =>
    intro hor
    rcases hor with h1 | h1 | h1
    · exact hidle (List.isEmpty_iff.mp h1)
    · rw [hrw] at h1
      exact h1 rfl
    · omega
  rw [hdrop]
  rfl

/-- A two-client state satisfying the C4 premises (round-fixed availability
on, round not advanced, client 0 idle) but with client 1 `dropped` amid its
countdown. -/
def sysC4 : Sys where
  client_states := [.idle, .dropped]
  vars := [⟨1, 0, 0, 0, 0⟩, ⟨1, 0, 0, 0, 0⟩]
  state_counter := [⟨0, 0⟩, ⟨1, 0⟩]
  roundwise_fixed_availability := true
  availability_latest_round := 0
  current_round := 0
  tolerance_for_latency := 5
  rand := fun _ => 1
  rand_idx := 0
  time := 0
  q := []
  unavailable_selected := []
  dropped_selected := none
  overdue_clients := []
  received_clients := []

/-- C4 counterexample: with round-fixed availability on,
`availability_latest_round = current_round` and an idle client present, a
second `flush` can still change state-set membership through the
dropped-countdown: client 1 starts `dropped` with `dropped_counter = 1`, is
still `dropped` after the first flush, and resolves to `idle` in the second. -/
theorem C4_flush_counterexample :
    sysC4.roundwise_fixed_availability = true ∧
    sysC4.availability_latest_round = sysC4.current_round ∧
    idle_clients sysC4 ≠ [] ∧
    get_client_with_state (flush sysC4) .dropped = [1] ∧
    get_client_with_state (flush (flush sysC4)) .dropped = [] ∧
    get_client_with_state (flush (flush sysC4)) .dropped ≠
      get_client_with_state (flush sysC4) .dropped := by
  refine ⟨rfl, rfl, by decide, by decide, by decide, by decide⟩

/-- C4 amended: with the additional premise that no client is currently
`dropped`, `flush` is the identity under the skip condition, so two
consecutive flushes produce identical state-set membership for every state. -/
theorem C4_flush_idempotent_amended {s : Sys} (hidle : idle_clients s ≠ [])
    (hrw : s.roundwise_fixed_availability = true)
    (hlr : s.availability_latest_round = s.current_round)
    (hdrop : dropped_clients s = []) :
    (∀ st : CState, get_client_with_state (flush (flush s)) st =
      get_client_with_state (flush s) st) ∧ flush (flush s) = flush s := by
  rw [flush_fixed_noop hidle hrw hlr hdrop, flush_fixed_noop hidle hrw hlr hdrop]
  exact ⟨fun st => rfl, rfl⟩

def sysC4w : Sys where
  client_states := [.idle]
  vars := [⟨1, 0, 0, 0, 0⟩]
  state_counter := [⟨0, 0⟩]
  roundwise_fixed_availability := true
  availability_latest_round := 0
  current_round := 0
  tolerance_for_latency := 5
  rand := fun _ => 1
  rand_idx := 0
  time := 0
  q := []
  unavailable_selected := []
  dropped_selected := none
  overdue_clients := []
  received_clients := []

theorem C4_flush_idempotent_amended_witness :
    idle_clients sysC4w ≠ [] ∧
    (∀ st : CState, get_client_with_state (flush (flush sysC4w)) st =
      get_client_with_state (flush sysC4w) st) :=
  ⟨by decide,
    (C4_flush_idempotent_amended (by decide) rfl rfl (by decide)).1⟩

/-! ## C10: the availability toggle uses start-state snapshots -/

theorem drawFlags_client_states (p : Nat → ℚ) (ids : List Nat) (s : Sys) :
    (drawFlags p ids s).2.client_states = s.client_states := by
  rw [drawFlags_state]

theorem flushDroppedOne_states_other {s : Sys} {cid c : Nat} (h : c ≠ cid) :
    (flushDroppedOne s cid).client_states.getD c default =
      s.client_states.getD c default := by
  simp only [flushDroppedOne]
  split
  · split <;>
    · rw [set_client_state_states, set_states_getD,
        if_neg (fun hh => h (by simpa using hh.1))]
      exact getD_set_ne' (fun hh => h hh.symm) _
  · rfl

theorem foldl_flushDroppedOne_states_other (ids : List Nat) :
    ∀ (s : Sys) (c : Nat), c ∉ ids →
      ((ids.foldl flushDroppedOne s).client_states.getD c default
        = s.client_states.getD c default) := by
  induction ids with
  | nil => intro s c h; rfl
  | cons i is ih =>
    intro s c h
    have h1 : c ≠ i := fun hh => h (hh ▸ List.mem_cons_self i is)
    have h2 : c ∉ is := fun hh => h (List.mem_cons_of_mem i hh)
    show ((is.foldl flushDroppedOne (flushDroppedOne s i)).client_states.getD c default) = _
    rw [ih (flushDroppedOne s i) c h2, flushDroppedOne_states_other h1]

/-- The intermediate values of `flush`'s availability toggle (transcribed
from the body of `flush` so they can be named in theorems). -/
def availSA (s : Sys) : Sys := {s with availability_latest_round := s.current_round}

def availOffRes (s : Sys) : List (Nat × Bool) × Sys :=
  drawFlags (fun cid => ((availSA s).vars.getD cid default).prob_available)
    (offline_clients (availSA s)) (availSA s)

def availIdleRes (s : Sys) : List (Nat × Bool) × Sys :=
  drawFlags (fun cid => ((availOffRes s).2.vars.getD cid default).prob_unavailable)
    (idle_clients (availOffRes s).2) (availOffRes s).2

def availNewIdle (s : Sys) : List Nat :=
  ((availOffRes s).1.filter (fun p => p.2)).map (fun p => p.1)

def availNewOffline (s : Sys) : List Nat :=
  ((availIdleRes s).1.filter (fun p => p.2)).map (fun p => p.1)

def availToggled (s : Sys) : Sys :=
  set_client_state (set_client_state (availIdleRes s).2 (availNewIdle s) .idle)
    (availNewOffline s) .offline

theorem flush_toggle_eq (s : Sys)
    (hcond : (idle_clients s).isEmpty = true ∨ ¬ s.roundwise_fixed_availability = true ∨
      s.availability_latest_round < s.current_round) :
    flush s = (dropped_clients (availToggled s)).foldl flushDroppedOne (availToggled s) := by
  simp only [flush, availToggled, availIdleRes, availOffRes, availSA, availNewIdle,
    availNewOffline]
  rw [if_pos hcond]

theorem mem_filter_flags {flags : List (Nat × Bool)} {cid : Nat}
    (h : cid ∈ (flags.filter (fun p => p.2)).map (fun p => p.1)) :
    cid ∈ flags.map (fun p => p.1) := by
  obtain ⟨pr, hpr, hh⟩ := List.mem_map.mp h
  exact List.mem_map.mpr ⟨pr, (List.mem_filter.mp hpr).1, hh⟩

theorem availOffRes_states (s : Sys) : (availOffRes s).2.client_states = s.client_states := by
  simp only [availOffRes]
  rw [drawFlags_client_states]
  rfl

theorem availIdleRes_states (s : Sys) :
    (availIdleRes s).2.client_states = s.client_states := by
  simp only [availIdleRes]
  rw [drawFlags_client_states, availOffRes_states]

theorem idle_clients_availOffRes (s : Sys) :
    idle_clients (availOffRes s).2 = idle_clients s := by
  unfold idle_clients get_client_with_state
  rw [availOffRes_states]

theorem availNewIdle_sub (s : Sys) : ∀ cid ∈ availNewIdle s, cid ∈ offline_clients s := by
  intro cid h
  have h2 := mem_filter_flags h
  simp only [availOffRes] at h2
  rw [drawFlags_fst] at h2
  exact h2

theorem availNewOffline_sub (s : Sys) : ∀ cid ∈ availNewOffline s, cid ∈ idle_clients s := by
  intro cid h
  have h2 := mem_filter_flags h
  simp only [availIdleRes] at h2
  rw [drawFlags_fst] at h2
  rwa [idle_clients_availOffRes] at h2

theorem availToggled_states_length (s : Sys) :
    (availToggled s).client_states.length = s.client_states.length := by
  unfold availToggled
  rw [set_client_state_states_length, set_client_state_states_length, availIdleRes_states]

/-- C10: within one `flush` whose availability toggle runs, both random draws
are evaluated against the offline/idle sets as they were at the start of the
toggle (the re-read idle set of the second loop equals the start idle set),
the state changes are applied only after both draw loops, and no client
changes availability state twice: the offline-to-idle winners and the
idle-to-offline winners are disjoint, a client toggled offline-to-idle ends
the whole flush `idle`, one toggled idle-to-offline ends it `offline`, and a
client in neither batch (and not in the dropped countdown) keeps its state. -/
theorem C10_toggle_snapshot (s : Sys)
    (hcond : (idle_clients s).isEmpty = true ∨ ¬ s.roundwise_fixed_availability = true ∨
      s.availability_latest_round < s.current_round) :
    (offline_clients (availSA s) = offline_clients s ∧
      idle_clients (availOffRes s).2 = idle_clients s) ∧
    (∀ cid ∈ availNewIdle s, cid ∈ offline_clients s) ∧
    (∀ cid ∈ availNewOffline s, cid ∈ idle_clients s) ∧
    (∀ cid, cid ∈ availNewIdle s → cid ∈ availNewOffline s → False) ∧
    (∀ cid ∈ availNewIdle s, (flush s).client_states.getD cid default = .idle) ∧
    (∀ cid ∈ availNewOffline s, (flush s).client_states.getD cid default = .offline) ∧
    (∀ cid, cid ∉ availNewIdle s → cid ∉ availNewOffline s →
      cid ∉ dropped_clients s →
      (flush s).client_states.getD cid default = s.client_states.getD cid default) := by
  have hre : idle_clients (availOffRes s).2 = idle_clients s := idle_clients_availOffRes s
  have hdisj : ∀ cid, cid ∈ availNewIdle s → cid ∈ availNewOffline s → False := by
    intro cid h1 h2
    have ho := (mem_get_client_with_state s .offline cid).mp (availNewIdle_sub s cid h1)
    have hi := (mem_get_client_with_state s .idle cid).mp (availNewOffline_sub s cid h2)
    rw [ho.2] at hi
    exact CState.noConfusion hi.2
  have hlenT : (availToggled s).client_states.length = s.client_states.length :=
    availToggled_states_length s
  -- the state of any client right after the toggle:
  have hTstate : ∀ cid, (availToggled s).client_states.getD cid default =
      if cid ∈ availNewOffline s ∧ cid < s.client_states.length then .offline
      else if cid ∈ availNewIdle s ∧ cid < s.client_states.length then .idle
      else s.client_states.getD cid default := by
    intro cid
    unfold availToggled
    rw [set_client_state_states, set_states_getD, set_client_state_states_length,
      set_client_state_states, set_states_getD, availIdleRes_states]
  have hfl : flush s = (dropped_clients (availToggled s)).foldl flushDroppedOne
      (availToggled s) := flush_toggle_eq s hcond
  refine ⟨⟨rfl, hre⟩, availNewIdle_sub s, availNewOffline_sub s, hdisj, ?_, ?_, ?_⟩
  · intro cid h1
    have hoff := (mem_get_client_with_state s .offline cid).mp (availNewIdle_sub s cid h1)
    have hT : (availToggled s).client_states.getD cid default = .idle := by
      rw [hTstate cid, if_neg (fun hh => hdisj cid h1 hh.1), if_pos ⟨h1, hoff.1⟩]
    have hnd : cid ∉ dropped_clients (availToggled s) := by
      intro hmem
      have := (mem_get_client_with_state (availToggled s) .dropped cid).mp hmem
      rw [hT] at this
      exact CState.noConfusion this.2
    rw [hfl, foldl_flushDroppedOne_states_other _ _ _ hnd, hT]
  · intro cid h1
    have hidl := (mem_get_client_with_state s .idle cid).mp (availNewOffline_sub s cid h1)
    have hT : (availToggled s).client_states.getD cid default = .offline := by
      rw [hTstate cid, if_pos ⟨h1, hidl.1⟩]
    have hnd : cid ∉ dropped_clients (availToggled s) := by
      intro hmem
      have := (mem_get_client_with_state (availToggled s) .dropped cid).mp hmem
      rw [hT] at this
      exact CState.noConfusion this.2
    rw [hfl, foldl_flushDroppedOne_states_other _ _ _ hnd, hT]
  · intro cid h1 h2 h3
    have hT : (availToggled s).client_states.getD cid default =
        s.client_states.getD cid default := by
      rw [hTstate cid, if_neg (fun hh => h2 hh.1), if_neg (fun hh => h1 hh.1)]
    have hnd : cid ∉ dropped_clients (availToggled s) := by
      intro hmem
      have hmm := (mem_get_client_with_state (availToggled s) .dropped cid).mp hmem
      rw [hT] at hmm
      refine h3 ((mem_get_client_with_state s .dropped cid).mpr ⟨?_, hmm.2⟩)
      rw [← hlenT]
      exact hmm.1
    rw [hfl, foldl_flushDroppedOne_states_other _ _ _ hnd, hT]

theorem C10_toggle_snapshot_witness :
    (¬ sys0.roundwise_fixed_availability = true) ∧
    (∀ cid ∈ availNewIdle sys0, (flush sys0).client_states.getD cid default = .idle) :=
  ⟨by decide, (C10_toggle_snapshot sys0 (Or.inr (Or.inl (by decide)))).2.2.2.2.1⟩

/-! ## C7: the sampling-phase wrapper -/

/-- `k` one-unit clock advances (each flushing), as performed by the
wait-for-availability loop. -/
def iterStepOne (s : Sys) : Nat → Sys
  | 0 => s
  | k + 1 => iterStepOne (step_one s) k

theorem set_client_state_unavailable (s : Sys) (ids : List Nat) (st : CState) :
    (set_client_state s ids st).unavailable_selected = s.unavailable_selected := by
  cases st <;> rfl

theorem samplePhase_spec (sample : Sys → List Nat × Sys) (s : Sys) :
    (samplePhase sample s).1 =
      (sample s).1.filter (fun cid => decide (cid ∈ idle_clients s)) ∧
    (samplePhase sample s).2.unavailable_selected =
      (sample s).1.filter (fun cid => decide (¬ cid ∈ idle_clients s)) ∧
    (∀ cid ∈ (samplePhase sample s).1,
      cid < (samplePhase sample s).2.client_states.length →
      (samplePhase sample s).2.client_states.getD cid default = .selected) := by
  refine ⟨rfl, ?_, ?_⟩
  · show (set_client_state _ _ .selected).unavailable_selected = _
    rw [set_client_state_unavailable]
  · intro cid hmem hlen
    have hlen2 : cid < ((sample s).2).client_states.length := by
      have h2 : (samplePhase sample s).2.client_states.length =
          ((sample s).2).client_states.length := by
        show (set_client_state _ _ .selected).client_states.length = _
        rw [set_client_state_states_length]
      rw [h2] at hlen
      exact hlen
    show (set_client_state _ _ .selected).client_states.getD cid default = _
    rw [set_client_state_states, set_states_getD, if_pos ⟨hmem, hlen2⟩]

/-- The loop characterization of `sample_with_availability`: a successful run
advances the clock unit by unit exactly until the idle set first becomes
nonempty, and only then invokes the selection phase, once. -/
theorem sample_with_availability_some {fuel : Nat} {sample : Sys → List Nat × Sys}
    {s : Sys} {out : List Nat × Sys}
    (h : sample_with_availability fuel sample s = some out) :
    ∃ k, k ≤ fuel ∧ (∀ j, j < k → idle_clients (iterStepOne s j) = []) ∧
      idle_clients (iterStepOne s k) ≠ [] ∧
      out = samplePhase sample (iterStepOne s k) := by
  induction fuel generalizing s with
  | zero =>
    unfold sample_with_availability at h
    split at h
    · exact absurd h (by simp)
    · next hne =>
      injection h with h
      refine ⟨0, le_refl 0, fun j hj => absurd hj (by omega), ?_, h.symm⟩
      intro hnil
      exact hne (by simp [show idle_clients s = [] from hnil])
  | succ n ih =>
    unfold sample_with_availability at h
    split at h
    · next hemp =>
      obtain ⟨k, hk, hmin, hne, hout⟩ := ih h
      refine ⟨k + 1, by omega, ?_, ?_, ?_⟩
      · intro j hj
        cases j with
        | zero => exact List.isEmpty_iff.mp hemp
        | succ j' =>
          show idle_clients (iterStepOne (step_one s) j') = []
          exact hmin j' (by omega)
      · show idle_clients (iterStepOne (step_one s) k) ≠ []
        exact hne
      · exact hout
    · next hne =>
      injection h with h
      refine ⟨0, by omega, fun j hj => absurd hj (by omega), ?_, h.symm⟩
      intro hnil
      exact hne (by simp [show idle_clients s = [] from hnil])

/-- C7: a successful `sample_with_availability` run advances the clock (with
`flush` per unit) exactly until the idle set first becomes nonempty — at
least one unit when it starts empty — then invokes the wrapped selection
function exactly once; selected-but-not-idle clients are recorded in
`_unavailable_selected_clients` and excluded; the survivors are returned in
selection order and marked `selected`. -/
theorem C7_sampling_availability (fuel : Nat) (sample : Sys → List Nat × Sys)
    (s : Sys) (out : List Nat × Sys)
    (h : sample_with_availability fuel sample s = some out) :
    ∃ k, k ≤ fuel ∧
      (∀ j, j < k → idle_clients (iterStepOne s j) = []) ∧
      idle_clients (iterStepOne s k) ≠ [] ∧
      (idle_clients s = [] → 1 ≤ k) ∧
      out = samplePhase sample (iterStepOne s k) ∧
      out.1 = (sample (iterStepOne s k)).1.filter
        (fun cid => decide (cid ∈ idle_clients (iterStepOne s k))) ∧
      out.2.unavailable_selected = (sample (iterStepOne s k)).1.filter
        (fun cid => decide (¬ cid ∈ idle_clients (iterStepOne s k))) ∧
      (∀ cid ∈ out.1, cid < out.2.client_states.length →
        out.2.client_states.getD cid default = .selected) := by
  obtain ⟨k, hk, hmin, hne, hout⟩ := sample_with_availability_some h
  obtain ⟨hs1, hs2, hs3⟩ := samplePhase_spec sample (iterStepOne s k)
  refine ⟨k, hk, hmin, hne, ?_, hout, ?_, ?_, ?_⟩
  · intro hnil
    by_contra hk0
    have hk00 : k = 0 := by omega
    rw [hk00] at hne
    exact hne hnil
  · rw [hout]
    exact hs1
  · rw [hout]
    exact hs2
  · rw [hout]
    exact hs3

/-- A one-client system with the client offline and `prob_available = 1`. -/
def sysC7 : Sys where
  client_states := [.offline]
  vars := [⟨1, 0, 0, 0, 0⟩]
  state_counter := [⟨0, 0⟩]
  roundwise_fixed_availability := false
  availability_latest_round := -1
  current_round := 0
  tolerance_for_latency := 5
  rand := fun _ => 1
  rand_idx := 0
  time := 0
  q := []
  unavailable_selected := []
  dropped_selected := none
  overdue_clients := []
  received_clients := []

theorem C7_sampling_availability_witness :
    idle_clients sysC7 = [] ∧
    ∃ k, k ≤ 2 ∧
      (∀ j, j < k → idle_clients (iterStepOne sysC7 j) = []) ∧
      idle_clients (iterStepOne sysC7 k) ≠ [] ∧
      (idle_clients sysC7 = [] → 1 ≤ k) ∧
      samplePhase (fun st => ([0], st)) (iterStepOne sysC7 1) =
        samplePhase (fun st => ([0], st)) (iterStepOne sysC7 k) ∧
      (samplePhase (fun st => ([0], st)) (iterStepOne sysC7 1)).1 =
        ((fun st => (([0] : List Nat), st)) (iterStepOne sysC7 k)).1.filter
          (fun cid => decide (cid ∈ idle_clients (iterStepOne sysC7 k))) ∧
      (samplePhase (fun st => ([0], st)) (iterStepOne sysC7 1)).2.unavailable_selected =
        ((fun st => (([0] : List Nat), st)) (iterStepOne sysC7 k)).1.filter
          (fun cid => decide (¬ cid ∈ idle_clients (iterStepOne sysC7 k))) ∧
      (∀ cid ∈ (samplePhase (fun st => ([0], st)) (iterStepOne sysC7 1)).1,
        cid < (samplePhase (fun st => ([0], st)) (iterStepOne sysC7 1)).2.client_states.length →
        (samplePhase (fun st => ([0], st)) (iterStepOne sysC7 1)).2.client_states.getD cid
          default = .selected) :=
  ⟨by decide,
    C7_sampling_availability 2 (fun st => ([0], st)) sysC7
      (samplePhase (fun st => ([0], st)) (iterStepOne sysC7 1)) rfl⟩

/-! ## C8: the empty-selection branch of the timing phase -/

/-- A raw communicate function for scenarios: pure, one opaque body per id. -/
def commRaw : Sys → List Nat → Bool → List Nat × Sys :=
  fun s ids _ => (ids.map (fun _ => 0), s)

/-- One synchronous communicate round: `with_dropout` wrapping `with_clock`
wrapping the raw communicate (`communicate_with_clock` reads the
`_dropped_selected_clients` attribute that `communicate_with_dropout`
assigned). -/
def commRound (s : Sys) (sel : List Nat) : Option (List Pkg × Sys) :=
  communicate_with_dropout (communicate_with_clock commRaw) s sel false

/-- A one-client system with `prob_drop = 1` and tolerance 5. -/
def sysC8 : Sys where
  client_states := [.idle]
  vars := [⟨1, 0, 1, 0, 0⟩]
  state_counter := [⟨0, 0⟩]
  roundwise_fixed_availability := false
  availability_latest_round := -1
  current_round := 0
  tolerance_for_latency := 5
  rand := fun _ => 1
  rand_idx := 0
  time := 0
  q := []
  unavailable_selected := []
  dropped_selected := none
  overdue_clients := []
  received_clients := []

/-- C8: evaluating the code at the failing input.  Round 1 selects client 0,
which is dropped in the round's dropout phase (`prob_drop = 1`); the empty
survivor set reaches the timing phase, which waits out the full
`tolerance_for_latency = 5` — so far as the claim says.  But in round 2 the
selection is empty, so the dropout phase drops NOBODY and does not touch the
stored `_dropped_selected_clients`; the timing phase nevertheless reads the
stale `[0]` from round 1 and advances the clock by another full 5 units,
where the claim (and the source's own comment) require an advance of zero. -/
theorem C8_stale_dropout_flag :
    ∃ s1 : Sys, commRound sysC8 [0] = some ([], s1) ∧ s1.time = 5 ∧
      s1.dropped_selected = some [0] ∧
      ∃ s2 : Sys, commRound s1 [] = some ([], s2) ∧
        s2.dropped_selected = some [0] ∧ s2.time = 10 ∧ s2.time ≠ s1.time := by
  refine ⟨_, rfl, by decide, by decide, _, rfl, by decide, by decide, by decide⟩

/-! ## C1: the synchronous collection step of `with_clock` -/

theorem flushDroppedOne_q (s : Sys) (cid : Nat) : (flushDroppedOne s cid).q = s.q := by
  simp only [flushDroppedOne]
  split
  · split <;> (rw [set_client_state_q]; rfl)
  · rfl

theorem foldl_flushDroppedOne_q (ids : List Nat) :
    ∀ s : Sys, (ids.foldl flushDroppedOne s).q = s.q := by
  induction ids with
  | nil => intro s; rfl
  | cons i is ih =>
    intro s
    show (is.foldl flushDroppedOne (flushDroppedOne s i)).q = s.q
    rw [ih, flushDroppedOne_q]

theorem flush_q (s : Sys) : (flush s).q = s.q := by
  simp only [flush]
  rw [foldl_flushDroppedOne_q]
  split
  · simp [set_client_state_q, drawFlags_state]
  · rfl

theorem flushIter_q : ∀ (k : Nat) (s : Sys), (flushIter s k).q = s.q := by
  intro k
  induction k with
  | zero => intro s; rfl
  | succ k ih =>
    intro s
    show (flushIter (flush s) k).q = s.q
    rw [ih, flush_q]

theorem flushDroppedOne_states_length (s : Sys) (cid : Nat) :
    (flushDroppedOne s cid).client_states.length = s.client_states.length := by
  simp only [flushDroppedOne]
  split
  · split <;>
    · rw [set_client_state_states_length]
      show (s.client_states.set cid CState.offline).length = s.client_states.length
      rw [List.length_set]
  · rfl

theorem foldl_flushDroppedOne_states_length (ids : List Nat) :
    ∀ s : Sys, (ids.foldl flushDroppedOne s).client_states.length =
      s.client_states.length := by
  induction ids with
  | nil => intro s; rfl
  | cons i is ih =>
    intro s
    show (is.foldl flushDroppedOne (flushDroppedOne s i)).client_states.length = _
    rw [ih, flushDroppedOne_states_length]

theorem flush_states_length (s : Sys) :
    (flush s).client_states.length = s.client_states.length := by
  simp only [flush]
  rw [foldl_flushDroppedOne_states_length]
  split
  · simp [set_client_state_states_length, drawFlags_state]
  · rfl

theorem flushIter_states_length : ∀ (k : Nat) (s : Sys),
    (flushIter s k).client_states.length = s.client_states.length := by
  intro k
  induction k with
  | zero => intro s; rfl
  | succ k ih =>
    intro s
    show (flushIter (flush s) k).client_states.length = s.client_states.length
    rw [ih, flush_states_length]

theorem foldl_max_le (l : List Int) : ∀ acc : Int,
    acc ≤ l.foldl max acc ∧ ∀ x ∈ l, x ≤ l.foldl max acc := by
  induction l with
  | nil => intro acc; exact ⟨le_refl acc, by intro x hx; simp at hx⟩
  | cons y ys ih =>
    intro acc
    obtain ⟨h1, h2⟩ := ih (max acc y)
    refine ⟨le_trans (le_max_left acc y) h1, ?_⟩
    intro x hx
    rcases List.mem_cons.mp hx with rfl | hx2
    · exact le_trans (le_max_right acc x) h1
    · exact h2 x hx2

/-- Python `max` over a nonempty list bounds every member. -/
theorem listMax_ge {l : List Int} : ∀ x ∈ l, x ≤ listMax l := by
  intro x hx
  cases l with
  | nil => simp at hx
  | cons y ys =>
    show x ≤ ys.foldl max y
    rcases List.mem_cons.mp hx with rfl | hx2
    · exact (foldl_max_le ys x).1
    · exact (foldl_max_le ys y).2 x hx2

/-- If some package of the list carries `cid`, the dict lookup returns a
package carrying `cid`. -/
theorem pkg_map_cid {pkgs : List Pkg} {cid : Nat}
    (h : cid ∈ pkgs.map (fun pkg => pkg.cid)) : (pkg_map pkgs cid).cid = cid := by
  obtain ⟨p, hp, hpc⟩ := List.mem_map.mp h
  have hne : pkgs.filter (fun pkg => decide (pkg.cid = cid)) ≠ [] := by
    intro hnil
    have hmem : p ∈ pkgs.filter (fun pkg => decide (pkg.cid = cid)) :=
      List.mem_filter.mpr ⟨hp, by simp [hpc]⟩
    rw [hnil] at hmem
    exact List.not_mem_nil p hmem
  have hmem2 : pkg_map pkgs cid ∈ pkgs.filter (fun pkg => decide (pkg.cid = cid)) := by
    unfold pkg_map
    rw [List.getLastD_eq_getLast?, List.getLast?_eq_getLast _ hne]
    exact List.getLast_mem hne
  have hdec := (List.mem_filter.mp hmem2).2
  simpa using hdec

/-- Pushing a batch of packages (`put` per package, as the send loop does)
preserves heap validity. -/
theorem foldl_put_isHeap (l : List Pkg) (init : List (Elem Pkg)) (h : IsHeap init) :
    IsHeap (l.foldl (fun qq pi => put qq pi pi.t) init) := by
  have h2 := (foldl_heappush_spec (l.map (fun pi => (⟨pi, pi.t⟩ : Elem Pkg))) init h).1
  rw [List.foldl_map] at h2
  exact h2

/-- The per-client latencies of the selection, read from the post-`comm`
state `s0` (transcribed from the synchronous branch of
`communicate_with_clock` so the intermediate values can be named). -/
def c1Latencies (s0 : Sys) (sel : List Nat) : List Int :=
  sel.map (fun cid => (s0.vars.getD cid default).latency)

/-- The wait budget of the synchronous branch: the latency tolerance when
some selected client dropped this round or the maximum selected latency
exceeds it, the maximum selected latency otherwise. -/
def c1Delta (s0 : Sys) (sel : List Nat) (d : List Nat) : Int :=
  if d ≠ [] ∨ s0.tolerance_for_latency < listMax (c1Latencies s0 sel)
  then s0.tolerance_for_latency else listMax (c1Latencies s0 sel)

/-- The queue after the selected clients' reply packages (tagged with their
id and arrival time `now + latency`) are pushed. -/
def c1Queue (s0 : Sys) (sel bodies : List Nat) : List (Elem Pkg) :=
  ((bodies.zip (sel.zip (c1Latencies s0 sel))).map
    (fun p => Pkg.mk p.1 p.2.1 (s0.time + p.2.2))).foldl
    (fun qq pi => put qq pi pi.t) s0.q

/-- The system state after marking the selection `working` and pushing the
reply packages. -/
def c1S2 (s0 : Sys) (sel bodies : List Nat) : Sys :=
  {set_client_state s0 sel CState.working with q := c1Queue s0 sel bodies}

/-- The packages released by `get_until(now + delta)`, in pop order. -/
def c1Arrived (s0 : Sys) (sel bodies d : List Nat) : List Pkg :=
  (getUntilAux (c1Queue s0 sel bodies) (s0.time + c1Delta s0 sel d)).1.map
    (fun e => e.x)

/-- The queue left behind by `get_until(now + delta)`. -/
def c1Remaining (s0 : Sys) (sel bodies d : List Nat) : List (Elem Pkg) :=
  (getUntilAux (c1Queue s0 sel bodies) (s0.time + c1Delta s0 sel d)).2

/-- The ids whose packages arrived within the wait budget, in pop order. -/
def c1EffCids (s0 : Sys) (sel bodies d : List Nat) : List Nat :=
  (c1Arrived s0 sel bodies d).map (fun pkg => pkg.cid)

/-- The state after `clock.step(delta)`: `delta` flushes, then the time
advance. -/
def c1S3 (s0 : Sys) (sel bodies d : List Nat) : Sys :=
  let s' := flushIter {c1S2 s0 sel bodies with q := c1Remaining s0 sel bodies d}
    (c1Delta s0 sel d).toNat
  {s' with time := s'.time + c1Delta s0 sel d}

/-- The deduplicated list of selected clients whose package did not arrive. -/
def c1Overdue (s0 : Sys) (sel bodies d : List Nat) : List Nat :=
  (sel.filter (fun cid => decide (¬ cid ∈ c1EffCids s0 sel bodies d))).dedup

/-- The state after the overdue handling: when some selected client missed
the deadline, its queued package is purged and it is set `idle`. -/
def c1S5 (s0 : Sys) (sel bodies d : List Nat) : Sys :=
  let s4 := {c1S3 s0 sel bodies d with overdue_clients := c1Overdue s0 sel bodies d}
  if ¬ (c1Overdue s0 sel bodies d).isEmpty then
    set_client_state
      {s4 with q := (conditionally_clear s4.q
        (fun pkg => decide (pkg.cid ∈ c1Overdue s0 sel bodies d)))}
      (c1Overdue s0 sel bodies d) CState.idle
  else s4

/-- The returned packages: the arrivals, reordered to the original
selection order via the id-indexed dict. -/
def c1Ret (s0 : Sys) (sel bodies d : List Nat) : List Pkg :=
  (sel.filter (fun cid => decide (cid ∈ c1EffCids s0 sel bodies d))).map
    (fun cid => pkg_map (c1Arrived s0 sel bodies d) cid)

/-- The final state of the synchronous branch: arrived clients set
`offline` and recorded as received. -/
def c1Sf (s0 : Sys) (sel bodies d : List Nat) : Sys :=
  let s6 := set_client_state (c1S5 s0 sel bodies d) (c1EffCids s0 sel bodies d)
    CState.offline
  {s6 with received_clients := (c1Ret s0 sel bodies d).map (fun pkg => pkg.cid)}

theorem c1Queue_isHeap {s0 : Sys} (hq : IsHeap s0.q) (sel bodies : List Nat) :
    IsHeap (c1Queue s0 sel bodies) :=
  foldl_put_isHeap _ _ hq

theorem c1S3_time (s0 : Sys) (sel bodies d : List Nat) :
    (c1S3 s0 sel bodies d).time = s0.time + c1Delta s0 sel d := by
  show (flushIter {c1S2 s0 sel bodies with q := c1Remaining s0 sel bodies d}
    (c1Delta s0 sel d).toNat).time + c1Delta s0 sel d = _
  rw [flushIter_time]
  show (set_client_state s0 sel CState.working).time + _ = _
  rw [set_client_state_time]

theorem c1S3_q (s0 : Sys) (sel bodies d : List Nat) :
    (c1S3 s0 sel bodies d).q = c1Remaining s0 sel bodies d := by
  show (flushIter {c1S2 s0 sel bodies with q := c1Remaining s0 sel bodies d}
    (c1Delta s0 sel d).toNat).q = _
  rw [flushIter_q]

theorem c1S3_states_length (s0 : Sys) (sel bodies d : List Nat) :
    (c1S3 s0 sel bodies d).client_states.length = s0.client_states.length := by
  show (flushIter {c1S2 s0 sel bodies with q := c1Remaining s0 sel bodies d}
    (c1Delta s0 sel d).toNat).client_states.length = _
  rw [flushIter_states_length]
  show (set_client_state s0 sel CState.working).client_states.length = _
  rw [set_client_state_states_length]

theorem c1Sf_time (s0 : Sys) (sel bodies d : List Nat) :
    (c1Sf s0 sel bodies d).time = s0.time + c1Delta s0 sel d := by
  show (set_client_state (c1S5 s0 sel bodies d) (c1EffCids s0 sel bodies d)
    CState.offline).time = _
  rw [set_client_state_time]
  have h5 : (c1S5 s0 sel bodies d).time = (c1S3 s0 sel bodies d).time := by
    unfold c1S5
    split
    · simp only [set_client_state_time]
    · rfl
  rw [h5, c1S3_time]

theorem c1Sf_received (s0 : Sys) (sel bodies d : List Nat) :
    (c1Sf s0 sel bodies d).received_clients =
      (c1Ret s0 sel bodies d).map (fun pkg => pkg.cid) := rfl

theorem c1Overdue_mem {s0 : Sys} {sel bodies d : List Nat} {cid : Nat}
    (hcid : cid ∈ sel) (hno : cid ∉ c1EffCids s0 sel bodies d) :
    cid ∈ c1Overdue s0 sel bodies d := by
  unfold c1Overdue
  rw [List.mem_dedup]
  exact List.mem_filter.mpr ⟨hcid, by simpa using hno⟩

theorem c1Overdue_not_isEmpty {s0 : Sys} {sel bodies d : List Nat} {cid : Nat}
    (hov : cid ∈ c1Overdue s0 sel bodies d) :
    ¬ (c1Overdue s0 sel bodies d).isEmpty = true := by
  intro h
  rw [List.isEmpty_iff] at h
  rw [h] at hov
  exact List.not_mem_nil cid hov

/-- A selected client whose package did not arrive ends the round `idle`. -/
theorem c1Sf_states_overdue {s0 : Sys} {sel bodies d : List Nat} {cid : Nat}
    (hcid : cid ∈ sel) (hno : cid ∉ c1EffCids s0 sel bodies d)
    (hlen : cid < s0.client_states.length) :
    (c1Sf s0 sel bodies d).client_states.getD cid default = CState.idle := by
  have hov : cid ∈ c1Overdue s0 sel bodies d := c1Overdue_mem hcid hno
  have hovne : ¬ (c1Overdue s0 sel bodies d).isEmpty = true :=
    c1Overdue_not_isEmpty hov
  have h5 : (c1S5 s0 sel bodies d).client_states.getD cid default = CState.idle := by
    unfold c1S5
    rw [if_pos hovne]
    simp only [set_client_state_states, set_states_getD]
    rw [c1S3_states_length]
    rw [if_pos ⟨hov, hlen⟩]
  show (set_client_state (c1S5 s0 sel bodies d) (c1EffCids s0 sel bodies d)
    CState.offline).client_states.getD cid default = _
  rw [set_client_state_states, set_states_getD, if_neg (fun hh => hno hh.1)]
  exact h5

theorem c1Sf_q_eq {s0 : Sys} {sel bodies d : List Nat}
    (hovne : ¬ (c1Overdue s0 sel bodies d).isEmpty = true) :
    (c1Sf s0 sel bodies d).q = conditionally_clear (c1Remaining s0 sel bodies d)
      (fun pkg => decide (pkg.cid ∈ c1Overdue s0 sel bodies d)) := by
  show (set_client_state (c1S5 s0 sel bodies d) (c1EffCids s0 sel bodies d)
    CState.offline).q = _
  rw [set_client_state_q]
  unfold c1S5
  rw [if_pos hovne]
  simp only [set_client_state_q]
  rw [c1S3_q]

/-- No package of a selected client that missed the deadline survives the
purge. -/
theorem c1Sf_purge {s0 : Sys} {sel bodies d : List Nat} (hq : IsHeap s0.q)
    {cid : Nat} (hcid : cid ∈ sel) (hno : cid ∉ c1EffCids s0 sel bodies d) :
    ∀ e ∈ (c1Sf s0 sel bodies d).q, e.x.cid ≠ cid := by
  have hov : cid ∈ c1Overdue s0 sel bodies d := c1Overdue_mem hcid hno
  have hovne : ¬ (c1Overdue s0 sel bodies d).isEmpty = true :=
    c1Overdue_not_isEmpty hov
  have hrem : IsHeap (c1Remaining s0 sel bodies d) :=
    (getUntilAux_spec (c1Queue_isHeap hq sel bodies)
      (s0.time + c1Delta s0 sel d)).2.2.2.2
  obtain ⟨hh, hp⟩ := conditionally_clear_spec hrem
    (fun pkg => decide (pkg.cid ∈ c1Overdue s0 sel bodies d))
  intro e he
  rw [c1Sf_q_eq hovne] at he
  have he2 := hp.mem_iff.mp he
  have hf := (List.mem_filter.mp he2).2
  intro hEq
  rw [hEq] at hf
  simp [hov] at hf

/-- The returned packages carry exactly the selection filtered down to the
arrived ids, in the original selection order. -/
theorem c1Ret_cids (s0 : Sys) (sel bodies d : List Nat) :
    (c1Ret s0 sel bodies d).map (fun pkg => pkg.cid) =
      sel.filter (fun cid => decide (cid ∈ c1EffCids s0 sel bodies d)) := by
  unfold c1Ret
  rw [List.map_map]
  refine Eq.trans (List.map_congr_left ?_) (List.map_id _)
  intro x hx
  have hxe : x ∈ c1EffCids s0 sel bodies d := by
    have hd2 := (List.mem_filter.mp hx).2
    simpa using hd2
  show (pkg_map (c1Arrived s0 sel bodies d) x).cid = x
  exact pkg_map_cid (by simpa [c1EffCids] using hxe)

/-- Symbolic execution of the synchronous branch of `communicate_with_clock`
with a non-empty selection and an assigned dropped list: the call returns the
reordered arrivals and the transcribed final state. -/
theorem communicate_with_clock_sync_eq
    (comm : Sys → List Nat → Bool → List Nat × Sys) (s : Sys)
    (sel bodies : List Nat) (s0 : Sys) (d : List Nat)
    (hcomm : comm s sel false = (bodies, s0))
    (hsel : sel ≠ [])
    (hd : s0.dropped_selected = some d)
    (hd0 : 0 ≤ c1Delta s0 sel d) :
    communicate_with_clock comm s sel false =
      some (c1Ret s0 sel bodies d, c1Sf s0 sel bodies d) := by
  have hdeq : (if ¬ d.isEmpty = true ∨ s0.tolerance_for_latency <
        listMax (sel.map (fun cid => (s0.vars.getD cid default).latency))
      then s0.tolerance_for_latency
      else listMax (sel.map (fun cid => (s0.vars.getD cid default).latency)))
      = c1Delta s0 sel d := by
    unfold c1Delta c1Latencies
    exact if_congr (or_congr (not_congr List.isEmpty_iff) Iff.rfl) rfl rfl
  simp only [communicate_with_clock, hcomm]
  rw [if_neg (fun h => hsel h.2)]
  rw [if_pos hsel]
  rw [if_neg Bool.false_ne_true]
  simp only [set_client_state_dropped_sel, hd, set_client_state_vars,
    set_client_state_time, set_client_state_q, set_client_state_tol]
  rw [hdeq]
  simp only [clock_step]
  rw [if_neg (not_lt.mpr hd0)]
  simp only [c1Ret, c1Sf, c1S5, c1S3, c1S2, c1Overdue, c1EffCids, c1Arrived,
    c1Remaining, c1Queue, c1Latencies, get_until, set_client_state_dropped_sel, hd,
    set_client_state_vars, set_client_state_time, set_client_state_q,
    set_client_state_tol]

/-- C1: in the synchronous collection step of `communicate_with_clock` with
a non-empty post-dropout selection, the wait budget `delta` equals
`tolerance_for_latency` when some selected client was dropped this round or
the maximum latency over the selected clients exceeds the tolerance, and
equals that maximum latency otherwise; exactly the queued packages with
arrival time at most `now + delta` are popped; the clock advances by
`delta`; every selected client whose package did not arrive has its queued
package purged and is transitioned to `idle`; and the returned packages are
reordered to the original selection order, keeping only the arrivals. -/
theorem C1_sync_collection
    (comm : Sys → List Nat → Bool → List Nat × Sys) (s : Sys)
    (sel bodies : List Nat) (s0 : Sys) (d : List Nat)
    (hcomm : comm s sel false = (bodies, s0))
    (hsel : sel ≠ [])
    (hd : s0.dropped_selected = some d)
    (hq : IsHeap s0.q)
    (htol : 0 ≤ s0.tolerance_for_latency)
    (hlat : ∀ cid ∈ sel, 0 ≤ (s0.vars.getD cid default).latency)
    (hvalid : ∀ cid ∈ sel, cid < s0.client_states.length) :
    communicate_with_clock comm s sel false =
      some (c1Ret s0 sel bodies d, c1Sf s0 sel bodies d) ∧
    c1Delta s0 sel d = (if d ≠ [] ∨
        s0.tolerance_for_latency < listMax (c1Latencies s0 sel)
      then s0.tolerance_for_latency else listMax (c1Latencies s0 sel)) ∧
    (c1Sf s0 sel bodies d).time = s0.time + c1Delta s0 sel d ∧
    (∀ e ∈ (getUntilAux (c1Queue s0 sel bodies) (s0.time + c1Delta s0 sel d)).1,
      e.time ≤ s0.time + c1Delta s0 sel d) ∧
    (∀ e ∈ (getUntilAux (c1Queue s0 sel bodies) (s0.time + c1Delta s0 sel d)).2,
      s0.time + c1Delta s0 sel d < e.time) ∧
    ((getUntilAux (c1Queue s0 sel bodies) (s0.time + c1Delta s0 sel d)).1 ++
      (getUntilAux (c1Queue s0 sel bodies) (s0.time + c1Delta s0 sel d)).2).Perm
      (c1Queue s0 sel bodies) ∧
    (∀ cid ∈ sel, cid ∉ c1EffCids s0 sel bodies d →
      (c1Sf s0 sel bodies d).client_states.getD cid default = CState.idle ∧
        ∀ e ∈ (c1Sf s0 sel bodies d).q, e.x.cid ≠ cid) ∧
    (c1Ret s0 sel bodies d).map (fun pkg => pkg.cid) =
      sel.filter (fun cid => decide (cid ∈ c1EffCids s0 sel bodies d)) ∧
    (c1Sf s0 sel bodies d).received_clients =
      (c1Ret s0 sel bodies d).map (fun pkg => pkg.cid) := by
  obtain ⟨c0, hc0⟩ := List.exists_mem_of_ne_nil sel hsel
  have hmax0 : 0 ≤ listMax (c1Latencies s0 sel) :=
    le_trans (hlat c0 hc0) (listMax_ge _ (List.mem_map.mpr ⟨c0, hc0, rfl⟩))
  have hd0 : 0 ≤ c1Delta s0 sel d := by
    unfold c1Delta
    split
    · exact htol
    · exact hmax0
  have hr := getUntilAux_spec (c1Queue_isHeap hq sel bodies)
    (s0.time + c1Delta s0 sel d)
  refine ⟨communicate_with_clock_sync_eq comm s sel bodies s0 d hcomm hsel hd hd0,
    rfl, c1Sf_time s0 sel bodies d, hr.1, hr.2.2.2.1, hr.2.2.1, ?_,
    c1Ret_cids s0 sel bodies d, c1Sf_received s0 sel bodies d⟩
  intro cid hcid hno
  exact ⟨c1Sf_states_overdue hcid hno (hvalid cid hcid), c1Sf_purge hq hcid hno⟩

/-- One idle client with latency 2, tolerance 5, empty queue, nobody
dropped this round. -/
def sysC1 : Sys where
  client_states := [CState.idle]
  vars := [⟨1, 0, 0, 0, 2⟩]
  state_counter := [⟨0, 0⟩]
  roundwise_fixed_availability := false
  availability_latest_round := 0
  current_round := 1
  tolerance_for_latency := 5
  rand := fun _ => 1
  rand_idx := 0
  time := 0
  q := []
  unavailable_selected := []
  dropped_selected := some []
  overdue_clients := []
  received_clients := []

theorem C1_sync_collection_witness :
    (([0] : List Nat) ≠ [] ∧ sysC1.dropped_selected = some [] ∧ IsHeap sysC1.q ∧
      0 ≤ sysC1.tolerance_for_latency ∧
      (∀ cid ∈ ([0] : List Nat), 0 ≤ (sysC1.vars.getD cid default).latency) ∧
      (∀ cid ∈ ([0] : List Nat), cid < sysC1.client_states.length)) ∧
    (c1Sf sysC1 [0] [7] []).time = sysC1.time + c1Delta sysC1 [0] [] :=
  ⟨⟨by decide, by decide, by decide, by decide, by decide, by decide⟩,
    (C1_sync_collection (fun st _ _ => ([7], st)) sysC1 [0] [7] sysC1 []
      rfl (by decide) (by decide) (by decide) (by decide)
      (by decide) (by decide)).2.2.1⟩

theorem C5_get_until_amended_witness :
    IsHeap ([⟨Pkg.mk 0 0 1, 1⟩, ⟨Pkg.mk 1 1 3, 3⟩] : List (Elem Pkg)) ∧
    (∀ e ∈ (getUntilAux ([⟨Pkg.mk 0 0 1, 1⟩, ⟨Pkg.mk 1 1 3, 3⟩] : List (Elem Pkg)) 2).1,
      e.time ≤ 2) ∧
    ((getUntilAux ([⟨Pkg.mk 0 0 1, 1⟩, ⟨Pkg.mk 1 1 3, 3⟩] : List (Elem Pkg)) 2).1.Pairwise
      (fun a b => a.time ≤ b.time)) :=
  ⟨by decide,
    (C5_get_until_amended (by decide) 2).1,
    (C5_get_until_amended (by decide) 2).2.1⟩

end FLGO

